import Mathlib

/-!
# Verification of the chat-template renderer and token classifier

A shallow embedding, in Lean 4, of the core of the
`llm-chat-template-renderer` repository:

* `src/components/image_renderer.py` — `tokenize_with_colors`, the token
  classifier (combined alternation scan + per-rule category resolution);
* `src/components/highlighter.py` — HTML escaping of text and patterns;
* `src/components/template_renderer.py` — `prepare_messages`,
  `render_template`, the template context construction;
* `src/components/prompt.py` — `generate_prompt`;
* `src/components/config.py` — the model registry `MODELS`.

Python's `re` module is external to the repository; it is modelled here by
a small executable regular-expression engine (`Regex`, `matchLens`) that
covers the syntax actually used by the registry's highlighting rules:
literal characters, `\`-escaped punctuation, `.`, character classes
`[...]`/`[^...]`, the postfix operators `*`/`+`/`?`, alternation `|` and
grouping `(...)`.  Matching follows Python's backtracking discipline:
alternatives are tried left to right and repetition is greedy, so the
first element of `matchLens` is the length Python's `re.match` would
report, and whole-string length membership models `re.fullmatch`.
-/

namespace ChatTemplate

/-- Abstract syntax of the regular-expression subset used to model
Python's `re`.  `cls neg cs` is a character class: it matches one
character `c` with `c ∈ cs`, negated when `neg` is true.  -/
inductive Regex where
  | eps : Regex
  | lit : Char → Regex
  | cls : Bool → List Char → Regex
  | seq : Regex → Regex → Regex
  | alt : Regex → Regex → Regex
  | star : Regex → Regex
deriving Repr, DecidableEq

/-- All lengths `L` such that the regex matches the first `L` characters of
`s`, in Python backtracking priority order (first alternative first,
greedy repetition: more repetitions before fewer; a star never repeats an
empty match, as Python's engine refuses empty repetitions).  `fuel` is a
structural-recursion bound; every call decreases it, and any
`fuel > r.size + s.length` is saturating (`matchLens_sat`). -/
def matchLens : Nat → Regex → List Char → List Nat
  | 0, _, _ => []
  | _ + 1, .eps, _ => [0]
  | _ + 1, .lit _, [] => []
  | _ + 1, .lit c, a :: _ => if a = c then [1] else []
  | _ + 1, .cls _ _, [] => []
  | _ + 1, .cls neg cs, a :: _ => if (cs.contains a) ≠ neg then [1] else []
  | f + 1, .seq r₁ r₂, s =>
      (matchLens f r₁ s).flatMap fun l₁ =>
        (matchLens f r₂ (s.drop l₁)).map fun l₂ => l₁ + l₂
  | f + 1, .alt r₁ r₂, s => matchLens f r₁ s ++ matchLens f r₂ s
  | f + 1, .star r, s =>
      (((matchLens f r s).filter fun l => 0 < l).flatMap fun l =>
        (matchLens f (.star r) (s.drop l)).map fun l' => l + l') ++ [0]

/-- Structural size of a regex (executable, unlike `sizeOf`). -/
def Regex.size : Regex → Nat
  | .eps => 1
  | .lit _ => 1
  | .cls _ _ => 1
  | .seq r₁ r₂ => r₁.size + r₂.size + 1
  | .alt r₁ r₂ => r₁.size + r₂.size + 1
  | .star r => r.size + 1

theorem Regex.size_pos (r : Regex) : 0 < r.size := by
  cases r <;> simp [Regex.size]

/-- Fuel sufficient to saturate `matchLens r s`. -/
def enoughFuel (r : Regex) (s : List Char) : Nat :=
  r.size + s.length + 1

/-- Saturated match lengths; the semantics of the modelled regex. -/
def mlens (r : Regex) (s : List Char) : List Nat :=
  matchLens (enoughFuel r s) r s

example : mlens (.lit 'a') ['a', 'b'] = [1] := by decide
example : mlens (.seq (.lit 'a') (.star (.cls true ['b']))) ['a', 'c', 'c', 'b'] =
    [3, 2, 1] := by decide
example : mlens (.alt (.seq (.lit 'a') (.lit 'b')) (.lit 'a')) ['a', 'b'] = [2, 1] := by
  decide

/-- Every reported match length is bounded by the length of the input. -/
theorem matchLens_le {f : Nat} {r : Regex} {s : List Char} {L : Nat}
    (h : L ∈ matchLens f r s) : L ≤ s.length := by
  induction f using Nat.strong_induction_on generalizing r s L with
  | _ f ihf =>
    match f, r with
    | 0, _ => simp [matchLens] at h
    | _ + 1, .eps => simp [matchLens] at h; omega
    | _ + 1, .lit c =>
      cases s with
      | nil => simp [matchLens] at h
      | cons a s' =>
        simp only [matchLens] at h
        split at h <;> simp_all
    | _ + 1, .cls neg cs =>
      cases s with
      | nil => simp [matchLens] at h
      | cons a s' =>
        simp only [matchLens] at h
        split at h <;> simp_all
    | g + 1, .seq r₁ r₂ =>
      simp only [matchLens, List.mem_flatMap, List.mem_map] at h
      obtain ⟨l₁, h₁, l₂, h₂, rfl⟩ := h
      have b₁ := ihf g (by omega) h₁
      have b₂ := ihf g (by omega) h₂
      simp only [List.length_drop] at b₂
      omega
    | g + 1, .alt r₁ r₂ =>
      simp only [matchLens, List.mem_append] at h
      rcases h with h | h
      · exact ihf g (by omega) h
      · exact ihf g (by omega) h
    | g + 1, .star r =>
      simp only [matchLens, List.mem_append, List.mem_flatMap, List.mem_map,
        List.mem_filter] at h
      rcases h with ⟨l, ⟨hl, _⟩, l', hl', rfl⟩ | h
      · have b₁ := ihf g (by omega) hl
        have b₂ := ihf g (by omega) hl'
        simp only [List.length_drop] at b₂
        omega
      · simp at h; omega

/-- `matchLens` is fuel-independent once the fuel exceeds
`r.size + s.length`. -/
theorem matchLens_sat {f e : Nat} {r : Regex} {s : List Char}
    (h : r.size + s.length < f) (h' : r.size + s.length < e) :
    matchLens f r s = matchLens e r s := by
  induction f using Nat.strong_induction_on generalizing r s e with
  | _ f ihf =>
    match f, e, r with
    | g + 1, g' + 1, .eps => simp [matchLens]
    | g + 1, g' + 1, .lit c => cases s <;> simp [matchLens]
    | g + 1, g' + 1, .cls neg cs => cases s <;> simp [matchLens]
    | g + 1, g' + 1, .seq r₁ r₂ =>
      simp only [matchLens]
      have s₁ : (Regex.seq r₁ r₂).size = r₁.size + r₂.size + 1 := rfl
      have p₁ := r₁.size_pos
      have p₂ := r₂.size_pos
      rw [ihf g (by omega) (e := g') (by omega) (by omega)]
      apply List.flatMap_congr
      intro l₁ hl₁
      have hd : (s.drop l₁).length ≤ s.length := by
        simp [List.length_drop]
      rw [ihf g (by omega) (e := g') (by omega) (by omega)]
    | g + 1, g' + 1, .alt r₁ r₂ =>
      simp only [matchLens]
      have p₁ := r₁.size_pos
      have p₂ := r₂.size_pos
      have s₁ : (Regex.alt r₁ r₂).size = r₁.size + r₂.size + 1 := rfl
      rw [ihf g (by omega) (e := g') (by omega) (by omega),
        ihf g (by omega) (e := g') (by omega) (by omega)]
    | g + 1, g' + 1, .star r =>
      simp only [matchLens]
      have s₁ : (Regex.star r).size = r.size + 1 := rfl
      have p₁ := r.size_pos
      rw [ihf g (by omega) (e := g') (by omega) (by omega)]
      congr 1
      apply List.flatMap_congr
      intro l hl
      have hmem := List.mem_filter.mp hl
      have hpos : 0 < l := by simpa using hmem.2
      have hle : l ≤ s.length := by
        have := matchLens_le (f := g') hmem.1
        omega
      have hd : (s.drop l).length = s.length - l := by simp
      rw [ihf g (by omega) (e := g') (by simp; omega) (by simp; omega)]

/-- `mlens` as the common value of all saturating fuels. -/
theorem mlens_eq {f : Nat} {r : Regex} {s : List Char}
    (h : r.size + s.length < f) : matchLens f r s = mlens r s :=
  matchLens_sat h (by simp [enoughFuel])

theorem mem_mlens_le {r : Regex} {s : List Char} {L : Nat}
    (h : L ∈ mlens r s) : L ≤ s.length :=
  matchLens_le h

theorem mem_matchLens_seq {f : Nat} {r₁ r₂ : Regex} {s : List Char} {L : Nat} :
    L ∈ matchLens (f + 1) (.seq r₁ r₂) s ↔
      ∃ l₁ l₂, l₁ ∈ matchLens f r₁ s ∧ l₂ ∈ matchLens f r₂ (s.drop l₁) ∧
        L = l₁ + l₂ := by
  simp only [matchLens, List.mem_flatMap, List.mem_map]
  constructor
  · rintro ⟨l₁, h₁, l₂, h₂, rfl⟩; exact ⟨l₁, l₂, h₁, h₂, rfl⟩
  · rintro ⟨l₁, l₂, h₁, h₂, rfl⟩; exact ⟨l₁, h₁, l₂, h₂, rfl⟩

theorem mem_matchLens_star {f : Nat} {r : Regex} {s : List Char} {L : Nat} :
    L ∈ matchLens (f + 1) (.star r) s ↔
      L = 0 ∨ ∃ l l', l ∈ matchLens f r s ∧ 0 < l ∧
        l' ∈ matchLens f (.star r) (s.drop l) ∧ L = l + l' := by
  simp only [matchLens, List.mem_append, List.mem_flatMap, List.mem_map,
    List.mem_filter, List.mem_singleton, decide_eq_true_eq]
  constructor
  · rintro (⟨l, ⟨hl, hp⟩, l', hl', rfl⟩ | h)
    · exact Or.inr ⟨l, l', hl, hp, hl', rfl⟩
    · exact Or.inl h
  · rintro (h | ⟨l, l', hl, hp, hl', rfl⟩)
    · exact Or.inr h
    · exact Or.inl ⟨l, ⟨hl, hp⟩, l', hl', rfl⟩

theorem isPre_drop {α : Type} {s t : List α} (n : Nat) (h : s <+: t) :
    s.drop n <+: t.drop n := by
  obtain ⟨u, rfl⟩ := h
  by_cases hle : n ≤ s.length
  · exact ⟨u, by rw [List.drop_append_of_le_length hle]⟩
  · have hnil : s.drop n = [] := by
      rw [List.drop_eq_nil_iff]; omega
    exact hnil ▸ ⟨(s ++ u).drop n, rfl⟩

/-- Whether a length is a match length depends only on the first `L`
characters of the input: matching is stable under extending the input
past position `L`. -/
theorem matchLens_of_pre {f : Nat} {r : Regex} {s t : List Char} {L : Nat}
    (hpre : s <+: t) (hL : L ≤ s.length) :
    L ∈ matchLens f r s ↔ L ∈ matchLens f r t := by
  induction f using Nat.strong_induction_on generalizing r s t L with
  | _ f ihf =>
    match f, r with
    | 0, _ => simp [matchLens]
    | _ + 1, .eps => simp [matchLens]
    | _ + 1, .lit c =>
      cases s with
      | nil =>
        have hL0 : L = 0 := by simpa using hL
        subst hL0
        cases t <;> simp [matchLens] <;> split <;> simp
      | cons a s' =>
        obtain ⟨u, rfl⟩ := hpre
        simp [matchLens]
    | _ + 1, .cls neg cs =>
      cases s with
      | nil =>
        have hL0 : L = 0 := by simpa using hL
        subst hL0
        cases t <;> simp [matchLens] <;> split <;> simp
      | cons a s' =>
        obtain ⟨u, rfl⟩ := hpre
        simp [matchLens]
    | g + 1, .seq r₁ r₂ =>
      rw [mem_matchLens_seq, mem_matchLens_seq]
      constructor
      · rintro ⟨l₁, l₂, h₁, h₂, rfl⟩
        have b₂ := matchLens_le h₂
        simp only [List.length_drop] at b₂
        refine ⟨l₁, l₂, (ihf g (by omega) hpre (by omega)).mp h₁,
          (ihf g (by omega) (isPre_drop l₁ hpre) (by simp; omega)).mp h₂, rfl⟩
      · rintro ⟨l₁, l₂, h₁, h₂, rfl⟩
        refine ⟨l₁, l₂, (ihf g (by omega) hpre (by omega)).mpr h₁,
          (ihf g (by omega) (isPre_drop l₁ hpre) (by simp; omega)).mpr h₂, rfl⟩
    | g + 1, .alt r₁ r₂ =>
      simp only [matchLens, List.mem_append]
      rw [ihf g (by omega) hpre hL, ihf g (by omega) hpre hL]
    | g + 1, .star r =>
      rw [mem_matchLens_star, mem_matchLens_star]
      constructor
      · rintro (rfl | ⟨l, l', hl, hp, hl', rfl⟩)
        · exact Or.inl rfl
        · have b' := matchLens_le hl'
          simp only [List.length_drop] at b'
          refine Or.inr ⟨l, l', (ihf g (by omega) hpre (by omega)).mp hl, hp,
            (ihf g (by omega) (isPre_drop l hpre) (by simp; omega)).mp hl', rfl⟩
      · rintro (rfl | ⟨l, l', hl, hp, hl', rfl⟩)
        · exact Or.inl rfl
        · refine Or.inr ⟨l, l', (ihf g (by omega) hpre (by omega)).mpr hl, hp,
            (ihf g (by omega) (isPre_drop l hpre) (by simp; omega)).mpr hl', rfl⟩

/-- `mlens` version of `matchLens_of_pre`. -/
theorem mlens_of_pre {r : Regex} {s t : List Char} {L : Nat}
    (hpre : s <+: t) (hL : L ≤ s.length) :
    L ∈ mlens r s ↔ L ∈ mlens r t := by
  have hst : s.length ≤ t.length := hpre.length_le
  rw [show mlens r s = matchLens (r.size + t.length + 1) r s from
      (mlens_eq (by omega)).symm,
    show mlens r t = matchLens (r.size + t.length + 1) r t from
      (mlens_eq (by omega)).symm]
  exact matchLens_of_pre hpre hL

/-- A match of length `L` is already a match on the truncation to `L`
characters, and conversely. -/
theorem mlens_take {r : Regex} {s : List Char} {L : Nat} (hL : L ≤ s.length) :
    L ∈ mlens r s ↔ L ∈ mlens r (s.take L) := by
  have := mlens_of_pre (r := r) (L := L)
    (s := s.take L) (t := s) ⟨s.drop L, List.take_append_drop L s⟩
    (by simp; omega)
  exact this.symm

/-! ## A parser for the modelled subset of Python regex syntax

`parseRegex` models `re.compile`: it returns `none` exactly when the
modelled engine regards the pattern as failing to compile (`re.error`).
The subset covers the syntax used by the registry's rules; constructs
outside it (repetition braces, anchors, ranges inside classes, `\`
followed by a letter or digit, a bare `]`) are rejected. -/

/-- Body of a character class, after `[` (and an optional `^`).  A `]` as
the first member is literal, as in Python; ranges (`-`) are outside the
modelled subset. -/
def parseClsBody (neg : Bool) (acc : List Char) : Nat → List Char → Option (Regex × List Char)
  | 0, _ => none
  | _ + 1, [] => none
  | f + 1, ']' :: rest =>
      if acc.isEmpty then parseClsBody neg [']'] f rest
      else some (.cls neg acc.reverse, rest)
  | _ + 1, '\\' :: [] => none
  | f + 1, '\\' :: c :: rest =>
      if c.isAlphanum then none else parseClsBody neg (c :: acc) f rest
  | f + 1, c :: rest =>
      if c = '-' then none else parseClsBody neg (c :: acc) f rest

/-- Grammar levels of the recursive-descent parser: alternation,
concatenation, postfix-operator application, atom. -/
inductive ParseLevel where
  | altE : ParseLevel
  | seqE : ParseLevel
  | postE : ParseLevel
  | atomE : ParseLevel

/-- One fueled recursive-descent parser for all grammar levels; every
recursive call decreases the fuel, so the definition is structural and
kernel-executable. -/
def parseLevel : Nat → ParseLevel → List Char → Option (Regex × List Char)
  | 0, _, _ => none
  | f + 1, .altE, s => do
      let (r, rest) ← parseLevel f .seqE s
      match rest with
      | '|' :: rest₂ => do
          let (r₂, rest₃) ← parseLevel f .altE rest₂
          pure (.alt r r₂, rest₃)
      | _ => pure (r, rest)
  | f + 1, .seqE, s =>
      match s with
      | [] => some (.eps, [])
      | ')' :: _ => some (.eps, s)
      | '|' :: _ => some (.eps, s)
      | _ => do
          let (a, rest) ← parseLevel f .postE s
          let (b, rest₂) ← parseLevel f .seqE rest
          pure (.seq a b, rest₂)
  | f + 1, .postE, s => do
      let (a, rest) ← parseLevel f .atomE s
      match rest with
      | '*' :: rest₂ => pure (.star a, rest₂)
      | '+' :: rest₂ => pure (.seq a (.star a), rest₂)
      | '?' :: rest₂ => pure (.alt a .eps, rest₂)
      | _ => pure (a, rest)
  | f + 1, .atomE, s =>
      match s with
      | [] => none
      | '\\' :: [] => none
      | '\\' :: c :: rest => if c.isAlphanum then none else some (.lit c, rest)
      | '[' :: '^' :: rest => parseClsBody true [] f rest
      | '[' :: rest => parseClsBody false [] f rest
      | '(' :: rest => do
          let (r, rest₂) ← parseLevel f .altE rest
          match rest₂ with
          | ')' :: rest₃ => pure (r, rest₃)
          | _ => none
      | '.' :: rest => some (.cls true ['\n'], rest)
      | c :: rest =>
          if ['*', '+', '?', ']', Char.ofNat 123, Char.ofNat 125,
              '^', '$', ')', '|'].contains c then none
          else some (.lit c, rest)

/-- Model of `re.compile` on the supported subset: `none` is a
compilation failure (`re.error`). -/
def parseRegex (p : String) : Option Regex :=
  match parseLevel (4 * p.length + 8) .altE p.data with
  | some (r, []) => some r
  | _ => none

/-- The regex matching exactly a literal character sequence; the meaning
of `re.escape(p)` for a literal pattern `p`. -/
def litRegex : List Char → Regex
  | [] => .eps
  | c :: cs => .seq (.lit c) (litRegex cs)

/-- `mlens` of a literal regex: the unique match is the literal itself,
as a prefix of the input. -/
theorem mlens_litRegex (p s : List Char) :
    mlens (litRegex p) s = if p <+: s then [p.length] else [] := by
  suffices h : ∀ f, (litRegex p).size + s.length < f →
      matchLens f (litRegex p) s = if p <+: s then [p.length] else [] by
    exact h _ (by simp [enoughFuel])
  induction p generalizing s with
  | nil =>
    intro f hf
    match f with
    | g + 1 => simp [litRegex, matchLens]
  | cons c p ih =>
    intro f hf
    have hsz : (litRegex (c :: p)).size = (litRegex p).size + 2 := by
      simp only [litRegex, Regex.size]
      omega
    have hppos := (litRegex p).size_pos
    match f, s with
    | g + 1, [] =>
      have hnp : ¬ (c :: p <+: ([] : List Char)) := by
        intro h
        simpa using h.length_le
      cases g with
      | zero => omega
      | succ g' => simp [litRegex, matchLens, hnp]
    | g + 1, a :: s' =>
      cases g with
      | zero => omega
      | succ g' =>
        simp only [litRegex, matchLens]
        by_cases hac : a = c
        · subst hac
          have hrec : matchLens (g' + 1) (litRegex p) s' =
              if p <+: s' then [p.length] else [] :=
            ih s' (g' + 1) (by simp at hf ⊢; omega)
          by_cases hps : p <+: s'
          · have hcp : a :: p <+: a :: s' := by
              obtain ⟨u, rfl⟩ := hps
              exact ⟨u, rfl⟩
            simp [hrec, hps, hcp, Nat.add_comm]
          · have hcp : ¬ (a :: p <+: a :: s') := by
              intro h
              obtain ⟨u, hu⟩ := h
              exact hps ⟨u, by simpa using hu⟩
            simp [hrec, hps, hcp]
        · have hcp : ¬ (c :: p <+: a :: s') := by
            intro h
            obtain ⟨u, hu⟩ := h
            simp at hu
            exact hac hu.1.symm
          simp [hac, hcp]

/-! ## The token classifier (`tokenize_with_colors`, image_renderer.py)

The Python function builds one combined alternation
`"(p1)|(p2)|..."` — escaping with `re.escape` every pattern that contains
none of a fixed list of metacharacters — scans the text with
`re.finditer`, and resolves the category of each matched span by testing
`re.fullmatch(pattern, span)` rule by rule (falling back to string
equality when the raw pattern does not compile). -/

/-- The metacharacter list of `tokenize_with_colors`
(image_renderer.py line 70); note it does not contain `.` or a
backslash. -/
def META_IMG : List Char :=
  ['+', '*', '?', '[', ']', '(', ')', Char.ofNat 123, Char.ofNat 125,
   '|', '^', '$']

/-- `any(c in pattern for c in [...])`: does the pattern contain a
metacharacter of the classifier's list?  If not, the pattern is escaped
with `re.escape` before entering the combined alternation. -/
def hasMetaImg (p : String) : Bool :=
  META_IMG.any fun c => p.data.contains c

/-- The alternatives of the combined pattern, in rule order: a pattern
containing a classifier metacharacter enters as-is (it must compile), any
other pattern enters as `re.escape(pattern)`, i.e. as a literal.  `none`
models `re.error` when compiling the combined pattern. -/
def combinedAlts : List (String × String) → Option (List Regex)
  | [] => some []
  | (p, _) :: rest =>
      match (if hasMetaImg p then parseRegex p else some (litRegex p.data)),
          combinedAlts rest with
      | some r, some rs => some (r :: rs)
      | _, _ => none

/-- The match of the combined alternation at the start of `s`: Python's
backtracking engine tries the alternatives in listed order and commits to
the first that matches; its match length is the head of its `mlens`. -/
def firstAltLen : List Regex → List Char → Option Nat
  | [], _ => none
  | r :: rest, s =>
      match mlens r s with
      | [] => firstAltLen rest s
      | L :: _ => some L

/-- Leftmost match at a position `≥ q`: the scanning loop inside
`re.finditer`.  Returns the match's start position and length. -/
def findFrom (alts : List Regex) (text : List Char) : Nat → Nat → Option (Nat × Nat)
  | _, 0 => none
  | q, fu + 1 =>
      if text.length < q then none
      else
        match firstAltLen alts (text.drop q) with
        | some L => some (q, L)
        | none => findFrom alts text (q + 1) fu

/-- All matches found by `re.finditer(combined, text)`, as
(start, length) pairs: repeatedly find the leftmost match at or after the
current position, then continue just past it (one position further for a
zero-width match, as Python does). -/
def scanMatches (alts : List Regex) (text : List Char) : Nat → Nat → List (Nat × Nat)
  | _, 0 => []
  | q, fu + 1 =>
      match findFrom alts text q (text.length + 1 - q) with
      | none => []
      | some (s, L) =>
          (s, L) :: scanMatches alts text (if L = 0 then s + 1 else s + L) fu

/-- `re.fullmatch(r, s)` succeeds iff the whole of `s` is a match. -/
def fullmatchB (r : Regex) (s : List Char) : Bool :=
  (mlens r s).contains s.length

/-- Category resolution for a matched span (image_renderer.py lines
89-98): the first rule whose raw pattern fullmatches the span wins; a
rule whose raw pattern does not compile (`re.error`) is instead compared
to the span by string equality.  `none` means no rule resolved, in which
case the span keeps the initial `"text"` key. -/
def resolveColorK : List (String × String) → List Char → Option String
  | [], _ => none
  | (p, key) :: rest, span =>
      match parseRegex p with
      | some r => if fullmatchB r span then some key else resolveColorK rest span
      | none => if p.data = span then some key else resolveColorK rest span

def resolveColor (patterns : List (String × String)) (span : List Char) : String :=
  (resolveColorK patterns span).getD "text"

/-- The loop body of `tokenize_with_colors`: emit the gap before each
match as a plain `"text"` segment, then the matched span with its
resolved category; after the matches, emit the remaining tail. -/
def assembleSegs (patterns : List (String × String)) (text : List Char) :
    List (Nat × Nat) → Nat → List (String × String)
  | [], lastEnd =>
      if lastEnd < text.length then [(String.mk (text.drop lastEnd), "text")]
      else []
  | (s, L) :: rest, lastEnd =>
      (if lastEnd < s then
        [(String.mk ((text.drop lastEnd).take (s - lastEnd)), "text")]
      else []) ++
      ((String.mk ((text.drop s).take L),
        resolveColor patterns ((text.drop s).take L)) ::
      assembleSegs patterns text rest (s + L))

/-- `tokenize_with_colors(text)` of image_renderer.py, with the rule list
of the selected model supplied explicitly (the Python function reads it
from the per-session state via `get_token_patterns`).  Returns the list
of `(segment text, color key)` pairs. -/
def tokenize_with_colors (patterns : List (String × String)) (text : String) :
    List (String × String) :=
  if patterns.isEmpty then [(text, "text")]
  else
    match combinedAlts patterns with
    | none => [(text, "text")]
    | some alts =>
        assembleSegs patterns text.data
          (scanMatches alts text.data 0 (text.data.length + 1)) 0

example :
    tokenize_with_colors [("<s>", "bos_eos"), ("<role>", "role")]
      "<s><role>hi</role>" =
    [("<s>", "bos_eos"), ("<role>", "role"), ("hi</role>", "text")] := by
  decide

example :
    tokenize_with_colors [("ab", "k1"), ("a", "k2")] "xaby" =
    [("x", "text"), ("ab", "k1"), ("y", "text")] := by decide

/-! ### Structure of the scanned match list -/

theorem firstAltLen_some {alts : List Regex} {s : List Char} {L : Nat}
    (h : firstAltLen alts s = some L) : ∃ r ∈ alts, L ∈ mlens r s := by
  induction alts with
  | nil => simp [firstAltLen] at h
  | cons r rest ih =>
    simp only [firstAltLen] at h
    cases hm : mlens r s with
    | nil =>
      rw [hm] at h
      obtain ⟨r', hr', hL⟩ := ih h
      exact ⟨r', List.mem_cons_of_mem _ hr', hL⟩
    | cons L' t =>
      rw [hm] at h
      cases h
      exact ⟨r, List.mem_cons_self _ _, by rw [hm]; exact List.mem_cons_self _ _⟩

theorem findFrom_some {alts : List Regex} {text : List Char} {q fu s L : Nat}
    (h : findFrom alts text q fu = some (s, L)) :
    q ≤ s ∧ s ≤ text.length ∧ firstAltLen alts (text.drop s) = some L := by
  induction fu generalizing q with
  | zero => simp [findFrom] at h
  | succ fu ih =>
    simp only [findFrom] at h
    split at h
    · exact absurd h (by simp)
    · rename_i hq
      cases hfa : firstAltLen alts (text.drop q) with
      | some L' =>
        rw [hfa] at h
        cases h
        exact ⟨le_refl _, by omega, hfa⟩
      | none =>
        rw [hfa] at h
        obtain ⟨h₁, h₂, h₃⟩ := ih h
        exact ⟨by omega, h₂, h₃⟩

/-- Well-formedness of a match list relative to a running end position:
matches come in order, never before `lastEnd`, and stay within the
text. -/
def MatchesWF (textLen : Nat) : List (Nat × Nat) → Nat → Prop
  | [], _ => True
  | (s, L) :: rest, lastEnd =>
      lastEnd ≤ s ∧ s + L ≤ textLen ∧ MatchesWF textLen rest (s + L)

theorem MatchesWF.mono {textLen : Nat} {ms : List (Nat × Nat)} {e e' : Nat}
    (h : MatchesWF textLen ms e') (hle : e ≤ e') : MatchesWF textLen ms e := by
  cases ms with
  | nil => trivial
  | cons m rest =>
    obtain ⟨h₁, h₂, h₃⟩ := h
    exact ⟨by omega, h₂, h₃⟩

theorem scanMatches_wf {alts : List Regex} {text : List Char} {q fu : Nat} :
    MatchesWF text.length (scanMatches alts text q fu) q := by
  induction fu generalizing q with
  | zero => simp [scanMatches, MatchesWF]
  | succ fu ih =>
    simp only [scanMatches]
    cases hf : findFrom alts text q (text.length + 1 - q) with
    | none => trivial
    | some m =>
      obtain ⟨s, L⟩ := m
      obtain ⟨h₁, h₂, h₃⟩ := findFrom_some hf
      obtain ⟨r, hr, hL⟩ := firstAltLen_some h₃
      have hLle : L ≤ text.length - s := by
        have := mem_mlens_le hL
        simp only [List.length_drop] at this
        exact this
      refine ⟨h₁, by omega, ?_⟩
      by_cases hL0 : L = 0
      · subst hL0
        simp only [if_pos rfl]
        exact (ih (q := s + 1)).mono (by omega)
      · rw [if_neg hL0]
        exact ih

/-- Concatenating the emitted segment texts of `assembleSegs` recovers
the text from `lastEnd` on, for any well-formed match list. -/
theorem assembleSegs_concat {patterns : List (String × String)}
    {text : List Char} {ms : List (Nat × Nat)} {lastEnd : Nat}
    (hwf : MatchesWF text.length ms lastEnd) (hle : lastEnd ≤ text.length) :
    (assembleSegs patterns text ms lastEnd).flatMap (fun seg => seg.1.data) =
      text.drop lastEnd := by
  induction ms generalizing lastEnd with
  | nil =>
    simp only [assembleSegs]
    split
    · simp
    · rename_i hlt
      rw [List.drop_eq_nil_iff.mpr (by omega)]
      simp
  | cons m rest ih =>
    obtain ⟨s, L⟩ := m
    obtain ⟨h₁, h₂, h₃⟩ := hwf
    simp only [assembleSegs, List.flatMap_append, List.flatMap_cons]
    have hrec := ih h₃ (by omega)
    have hsplit : text.drop lastEnd =
        (text.drop lastEnd).take (s - lastEnd) ++
          ((text.drop s).take L ++ text.drop (s + L)) := by
      conv_lhs => rw [← List.take_append_drop (s - lastEnd) (text.drop lastEnd)]
      congr 1
      rw [List.drop_drop]
      rw [show lastEnd + (s - lastEnd) = s from by omega]
      conv_lhs => rw [← List.take_append_drop L (text.drop s)]
      rw [List.drop_drop]
    by_cases hgap : lastEnd < s
    · rw [if_pos hgap]
      simp only [List.flatMap_cons, List.flatMap_nil, List.append_nil]
      rw [hrec]
      exact hsplit.symm
    · rw [if_neg hgap]
      have hse : lastEnd = s := by omega
      subst hse
      simp only [List.flatMap_nil, List.nil_append]
      rw [hrec]
      simp only [Nat.sub_self, List.take_zero, List.nil_append] at hsplit
      exact hsplit.symm

/-- Concatenation of the texts of a segment sequence, in order. -/
def segTexts (segs : List (String × String)) : String :=
  segs.foldr (fun seg acc => seg.1 ++ acc) ""

theorem segTexts_data (segs : List (String × String)) :
    (segTexts segs).data = segs.flatMap fun seg => seg.1.data := by
  induction segs with
  | nil => rfl
  | cons sg rest ih => simp [segTexts, List.flatMap_cons, ← ih]

/-! ## The model registry (`config.py`) -/

/-- The shape of a Python value as it appears in messages, tool calls and
the template context.  Python dicts are modelled as insertion-ordered
association lists, which is how Python dicts behave observably. -/
inductive PyVal where
  | pnull : PyVal
  | pbool : Bool → PyVal
  | pint : Int → PyVal
  | pstr : String → PyVal
  | plist : List PyVal → PyVal
  | pdict : List (String × PyVal) → PyVal

/-- `ModelConfig` dataclass of config.py. -/
structure ModelConfig where
  name : String
  template_file : String
  tokenizer_id : String
  bos_token : String
  eos_token : String
  token_patterns : List (String × String)
  template_vars : List (String × PyVal)

/-- The deepseek-v3.1 entry of config.py's `MODELS`. -/
def deepseekConfig : ModelConfig :=
    { name := "DeepSeek V3.1"
      template_file := "deepseek-v3.1.jinja"
      tokenizer_id := "deepseek-ai/DeepSeek-V3.1"
      bos_token := "<｜begin▁of▁sentence｜>"
      eos_token := "<｜end▁of▁sentence｜>"
      token_patterns := [
        ("<｜begin▁of▁sentence｜>", "bos_eos"),
        ("<｜end▁of▁sentence｜>", "bos_eos"),
        ("<｜User｜>", "role"),
        ("<｜Assistant｜>", "role"),
        ("<think>", "think"),
        ("</think>", "think"),
        ("<｜tool▁calls▁begin｜>", "func"),
        ("<｜tool▁calls▁end｜>", "func"),
        ("<｜tool▁call▁begin｜>", "func"),
        ("<｜tool▁call▁end｜>", "func"),
        ("<｜tool▁sep｜>", "func"),
        ("<｜tool▁output▁begin｜>", "func"),
        ("<｜tool▁output▁end｜>", "func")]
      template_vars := [("thinking", .pbool true)] }

/-- The qwen3 entry of config.py's `MODELS`. -/
def qwen3Config : ModelConfig :=
    { name := "Qwen3"
      template_file := "qwen3.jinja"
      tokenizer_id := "Qwen/Qwen3-235B-A22B"
      bos_token := ""
      eos_token := "<|im_end|>"
      token_patterns := [
        ("<\\|im_start\\|>", "bos_eos"),
        ("<\\|im_end\\|>", "bos_eos"),
        ("<\\|im_start\\|>system", "role"),
        ("<\\|im_start\\|>user", "role"),
        ("<\\|im_start\\|>assistant", "role"),
        ("<think>", "think"),
        ("</think>", "think"),
        ("<tools>", "func"),
        ("</tools>", "func"),
        ("<tool_call>", "func"),
        ("</tool_call>", "func"),
        ("<tool_response>", "func"),
        ("</tool_response>", "func")]
      template_vars := [("enable_thinking", .pbool true)] }

/-- The glm-4.5 entry of config.py's `MODELS`. -/
def glmConfig : ModelConfig :=
    { name := "GLM-4.5"
      template_file := "glm-4.5.jinja"
      tokenizer_id := "zai-org/GLM-4.5"
      bos_token := "[gMASK]<sop>"
      eos_token := ""
      token_patterns := [
        ("\\[gMASK\\]", "bos_eos"),
        ("<sop>", "bos_eos"),
        ("<\\|system\\|>", "role"),
        ("<\\|user\\|>", "role"),
        ("<\\|assistant\\|>", "role"),
        ("<\\|observation\\|>", "role"),
        ("<think>", "think"),
        ("</think>", "think"),
        ("<tools>", "func"),
        ("</tools>", "func"),
        ("<tool_call>", "func"),
        ("</tool_call>", "func"),
        ("<tool_response>", "func"),
        ("</tool_response>", "func"),
        ("<arg_key>", "dsml"),
        ("</arg_key>", "dsml"),
        ("<arg_value>", "dsml"),
        ("</arg_value>", "dsml")]
      template_vars := [("enable_thinking", .pbool true)] }

/-- The minimax-m2 entry of config.py's `MODELS`. -/
def minimaxConfig : ModelConfig :=
    { name := "MiniMax-M2"
      template_file := "minimax-m2.jinja"
      tokenizer_id := "MiniMaxAI/MiniMax-M2.1"
      bos_token := "]~!b["
      eos_token := "[e~["
      token_patterns := [
        ("\\]~!b\\[", "bos_eos"),
        ("\\]~b\\]", "bos_eos"),
        ("\\[e~\\[", "bos_eos"),
        ("\\]~b\\]system", "role"),
        ("\\]~b\\]user", "role"),
        ("\\]~b\\]ai", "role"),
        ("\\]~b\\]tool", "role"),
        ("<think>", "think"),
        ("</think>", "think"),
        ("<tools>", "func"),
        ("</tools>", "func"),
        ("<tool>", "func"),
        ("</tool>", "func"),
        ("<minimax:tool_call>", "func"),
        ("</minimax:tool_call>", "func"),
        ("<invoke[^>]*>", "func"),
        ("</invoke>", "func"),
        ("<parameter[^>]*>", "dsml"),
        ("</parameter>", "dsml"),
        ("<response>", "func"),
        ("</response>", "func")]
      template_vars := [] }

/-- The `MODELS` registry of config.py, as an insertion-ordered mapping
from model key to configuration. -/
def MODELS : List (String × ModelConfig) := [
  ("deepseek-v3.1", deepseekConfig),
  ("qwen3", qwen3Config),
  ("glm-4.5", glmConfig),
  ("minimax-m2", minimaxConfig)]

/-- `DEFAULT_MODEL` of config.py. -/
def DEFAULT_MODEL : String := "qwen3"

/-- Registry lookup, `model_key in MODELS` / `MODELS[model_key]`. -/
def lookupModel (key : String) : Option ModelConfig :=
  (MODELS.find? fun kv => kv.1 = key).map fun kv => kv.2

/-- `get_token_patterns` of image_renderer.py: the selected model's rule
list, or `[]` when the selected key is not in the registry. -/
def get_token_patterns (modelKey : String) : List (String × String) :=
  match lookupModel modelKey with
  | some cfg => cfg.token_patterns
  | none => []

example : (lookupModel "qwen3").isSome = true := rfl
example : (lookupModel "gpt-5").isSome = false := rfl

/-! ## HTML escaping (`highlighter.py`) -/

/-- Replace every occurrence of the character `c` by the string `rep`
(`str.replace` with a one-character needle). -/
def replaceChar (c : Char) (rep : List Char) (s : List Char) : List Char :=
  s.flatMap fun a => if a = c then rep else [a]

/-- `escape_html` of highlighter.py: replace `&`, then `<`, then `>`. -/
def escape_html (text : String) : String :=
  String.mk (replaceChar '>' ['&', 'g', 't', ';']
    (replaceChar '<' ['&', 'l', 't', ';']
      (replaceChar '&' ['&', 'a', 'm', 'p', ';'] text.data)))

/-- The pattern transformation of highlighter.py line 54: a rule pattern
is adapted to HTML-escaped text by replacing `<` and `>` only. -/
def escapePatternHtml (p : String) : String :=
  String.mk (replaceChar '>' ['&', 'g', 't', ';']
    (replaceChar '<' ['&', 'l', 't', ';'] p.data))

/-- A rule list as used against HTML-escaped text: every pattern
escaped, categories unchanged. -/
def escapedPatterns (patterns : List (String × String)) :
    List (String × String) :=
  patterns.map fun pk => (escapePatternHtml pk.1, pk.2)

example : escape_html "<a&b>" = "&lt;a&amp;b&gt;" := rfl
example : escapePatternHtml "<invoke[^>]*>" = "&lt;invoke[^&gt;]*&gt;" := rfl

/-- `replaceChar` leaves a string without the needle unchanged. -/
theorem replaceChar_id {c : Char} {rep s : List Char}
    (h : ∀ a ∈ s, a ≠ c) : replaceChar c rep s = s := by
  induction s with
  | nil => rfl
  | cons a s' ih =>
    simp only [replaceChar, List.flatMap_cons]
    rw [if_neg (h a (List.mem_cons_self a s'))]
    have := ih fun b hb => h b (List.mem_cons_of_mem a hb)
    simp only [replaceChar] at this
    rw [this]
    rfl

theorem mk_data (s : String) : String.mk s.data = s := rfl

/-! ## Claim C2: classification is a lossless partition -/

/-- C2: for every pattern list and every input text, concatenating the
texts of the segments returned by `tokenize_with_colors`, in order,
reconstructs the input text exactly. -/
theorem c2_classification_lossless (patterns : List (String × String))
    (text : String) :
    segTexts (tokenize_with_colors patterns text) = text := by
  apply String.ext
  rw [segTexts_data]
  unfold tokenize_with_colors
  split
  · simp
  · split
    · simp
    · rename_i alts halts
      have h := @assembleSegs_concat patterns text.data
        (scanMatches alts text.data 0 (text.data.length + 1))
        0 scanMatches_wf (Nat.zero_le _)
      simpa using h

/-! ## Claim C10: classification of the empty string -/

/-- C10: whenever the selected model's rule list is non-empty (as it is
for every registry model), classifying the empty string yields zero
segments; with an empty rule list (unknown model) it yields a single
empty plain-text segment. -/
theorem c10_empty_text_classification :
    (∀ key : String, get_token_patterns key ≠ [] →
      tokenize_with_colors (get_token_patterns key) "" = []) ∧
    tokenize_with_colors [] "" = [("", "text")] := by
  refine ⟨?_, rfl⟩
  intro key hne
  by_cases h1 : key = "deepseek-v3.1"
  · subst h1; rfl
  by_cases h2 : key = "qwen3"
  · subst h2; rfl
  by_cases h3 : key = "glm-4.5"
  · subst h3; rfl
  by_cases h4 : key = "minimax-m2"
  · subst h4; rfl
  exfalso
  apply hne
  simp only [get_token_patterns, lookupModel, MODELS, List.find?]
  rw [decide_eq_false (by exact fun h => h1 h.symm),
    decide_eq_false (by exact fun h => h2 h.symm),
    decide_eq_false (by exact fun h => h3 h.symm),
    decide_eq_false (by exact fun h => h4 h.symm)]
  rfl

/-- Witness for C10 at a concrete model key. -/
theorem c10_empty_text_classification_witness :
    get_token_patterns "qwen3" ≠ [] ∧
      tokenize_with_colors (get_token_patterns "qwen3") "" = [] :=
  ⟨by decide, c10_empty_text_classification.1 "qwen3" (by decide)⟩

/-! ## Claim C6: highlighter escaping versus raw classification -/

/-- C6 counterexample: for the minimax-m2 rule list and the input
`"<invoke tool>"`, classifying the raw text yields a single `func`
segment, while classifying the HTML-escaped text against the HTML-escaped
patterns yields a single plain-text segment: escaping `>` inside the
character class of `<invoke[^>]*>` changes the class's meaning, so the
two segmentations do not agree on categories. -/
theorem c6_counterexample :
    tokenize_with_colors (get_token_patterns "minimax-m2") "<invoke tool>" =
      [("<invoke tool>", "func")] ∧
    tokenize_with_colors (escapedPatterns (get_token_patterns "minimax-m2"))
      (escape_html "<invoke tool>") = [("&lt;invoke tool&gt;", "text")] ∧
    ("func" : String) ≠ "text" :=
  ⟨rfl, rfl, by decide⟩

/-- The per-character escape map of `escape_html`: `&`, `<`, `>` expand
to entity blocks, every other character stays itself. -/
def esc (c : Char) : List Char :=
  if c = '&' then ['&', 'a', 'm', 'p', ';']
  else if c = '<' then ['&', 'l', 't', ';']
  else if c = '>' then ['&', 'g', 't', ';']
  else [c]

/-- `escape_html` at the character-list level. -/
def escL (s : List Char) : List Char :=
  s.flatMap esc

/-- The characters that occur strictly inside an entity block. -/
def entityTail : List Char := ['a', 'm', 'p', 'l', 't', 'g', ';']

/-- A character the classifier and the modelled `re.compile` both read
literally: not a classifier metacharacter, not `.`, not `\`. -/
def plainChar (c : Char) : Bool :=
  !META_IMG.contains c && c ≠ '.' && c ≠ '\\'

/-- The condition on a rule under which HTML escaping provably commutes
with classification: the pattern is non-empty, genuinely literal (no
classifier metacharacter, no `.`, no `\`, so the combined-match phase,
the resolution phase and the escaped pattern all read it literally),
contains no `&` (patterns are never `&`-escaped although the text is),
and does not start with a character that occurs inside an entity block
(so it cannot match in the middle of an escape expansion).  Every
deepseek-v3.1 registry rule satisfies it. -/
def escSafe (p : String) : Bool :=
  !p.data.isEmpty &&
  p.data.all (fun c => plainChar c && c ≠ '&') &&
  (match p.data with
   | [] => false
   | c :: _ => !entityTail.contains c)

example : deepseekConfig.token_patterns.all (fun pk => escSafe pk.1) = true := by
  decide

theorem escL_append (a b : List Char) : escL (a ++ b) = escL a ++ escL b :=
  List.flatMap_append a b esc

theorem esc_length_pos (c : Char) : 0 < (esc c).length := by
  unfold esc
  repeat' split
  all_goals simp

theorem escL_nil_iff (s : List Char) : escL s = [] ↔ s = [] := by
  cases s with
  | nil => simp [escL]
  | cons c s' =>
    simp only [escL, List.flatMap_cons]
    constructor
    · intro h
      have hlen := congrArg List.length h
      rw [List.length_append] at hlen
      have := esc_length_pos c
      simp only [List.length_nil] at hlen
      omega
    · intro h
      cases h

/-- One escaped character under the later `<`/`>` replacement passes. -/
theorem esc_block_step (c : Char) :
    replaceChar '>' ['&', 'g', 't', ';']
      (replaceChar '<' ['&', 'l', 't', ';']
        (if c = '&' then ['&', 'a', 'm', 'p', ';'] else [c])) = esc c := by
  by_cases h1 : c = '&'
  · subst h1; rfl
  by_cases h2 : c = '<'
  · subst h2
    simp [replaceChar, esc]
  by_cases h3 : c = '>'
  · subst h3
    simp [replaceChar, esc]
  · simp [replaceChar, esc, h1, h2, h3]

/-- The three sequential `str.replace` passes of `escape_html` equal one
pass of the per-character map: replacing `&` first never re-triggers on
the `&` of an inserted entity because later passes only look for `<` and
`>`. -/
theorem escape_html_list (l : List Char) :
    replaceChar '>' ['&', 'g', 't', ';']
      (replaceChar '<' ['&', 'l', 't', ';']
        (replaceChar '&' ['&', 'a', 'm', 'p', ';'] l)) = escL l := by
  induction l with
  | nil => rfl
  | cons c s ih =>
    have hsplit : ∀ (x : Char) (rep : List Char) (a b : List Char),
        replaceChar x rep (a ++ b) = replaceChar x rep a ++ replaceChar x rep b := by
      intro x rep a b
      simp [replaceChar]
    show replaceChar _ _ (replaceChar _ _
      ((if c = '&' then ['&', 'a', 'm', 'p', ';'] else [c]) ++
        replaceChar '&' ['&', 'a', 'm', 'p', ';'] s)) = escL (c :: s)
    rw [hsplit, hsplit, ih, esc_block_step]
    rfl

theorem escape_html_data (t : String) :
    (escape_html t).data = escL t.data :=
  escape_html_list t.data

/-- One pattern character under the `<`/`>` replacement passes, given it
is not `&`. -/
theorem escP_block_step {c : Char} (hc : c ≠ '&') :
    replaceChar '>' ['&', 'g', 't', ';']
      (replaceChar '<' ['&', 'l', 't', ';'] [c]) = esc c := by
  by_cases h2 : c = '<'
  · subst h2
    simp [replaceChar, esc]
  by_cases h3 : c = '>'
  · subst h3
    simp [replaceChar, esc]
  · simp [replaceChar, esc, hc, h2, h3]

/-- The highlighter's pattern escape, for an `&`-free pattern, is the
same per-character map as the text escape. -/
theorem escapePatternHtml_list (l : List Char) (h : ∀ c ∈ l, c ≠ '&') :
    replaceChar '>' ['&', 'g', 't', ';']
      (replaceChar '<' ['&', 'l', 't', ';'] l) = escL l := by
  induction l with
  | nil => rfl
  | cons c s ih =>
    have hsplit : ∀ (x : Char) (rep : List Char) (a b : List Char),
        replaceChar x rep (a ++ b) = replaceChar x rep a ++ replaceChar x rep b := by
      intro x rep a b
      simp [replaceChar]
    have hc : c ≠ '&' := h c (List.mem_cons_self _ _)
    show replaceChar _ _ (replaceChar _ _ ([c] ++ s)) = escL (c :: s)
    rw [hsplit, hsplit, ih fun c' hc' => h c' (List.mem_cons_of_mem _ hc'),
      escP_block_step hc]
    rfl

theorem escapePatternHtml_data (p : String) (h : ∀ c ∈ p.data, c ≠ '&') :
    (escapePatternHtml p).data = escL p.data :=
  escapePatternHtml_list p.data h

/- Two further disagreements that force the conditions of the amended
claim beyond the character-class counterexample: a rule matching inside
an escape expansion, and a rule containing `&` (which the pattern escape
never rewrites although the text escape does). -/
example :
    tokenize_with_colors [("t", "k")] "<" = [("<", "text")] ∧
    tokenize_with_colors (escapedPatterns [("t", "k")]) (escape_html "<") =
      [("&l", "text"), ("t", "k"), (";", "text")] := ⟨rfl, rfl⟩
example :
    tokenize_with_colors [("a&b", "k")] "a&b" = [("a&b", "k")] ∧
    tokenize_with_colors (escapedPatterns [("a&b", "k")]) (escape_html "a&b") =
      [("a&amp;b", "text")] := ⟨rfl, rfl⟩

/-- A prefix determines the head of a non-empty list. -/
theorem pre_head_eq {x y : List Char} (h : x <+: y) (hx : x ≠ []) :
    x.head? = y.head? := by
  obtain ⟨t, rfl⟩ := h
  cases x with
  | nil => exact absurd rfl hx
  | cons a s => rfl

/-- A prefix agrees with the list at every position it covers. -/
theorem pre_getElem_eq {x y : List Char} (h : x <+: y) {i : Nat}
    (hi : i < x.length) : x[i]? = y[i]? := by
  obtain ⟨t, rfl⟩ := h
  rw [List.getElem?_append_left hi]

/-- Entity blocks of distinct (non-`&`) characters disagree within their
first two characters, whatever follows each. -/
theorem esc_head_ne {c d : Char} (hc : c ≠ '&') (hcd : c ≠ d)
    (A B : List Char) : ¬ (esc c ++ A <+: esc d ++ B) := by
  intro h
  have key : ∀ i, i < (esc c).length → i < (esc d).length →
      (esc c)[i]? = (esc d)[i]? := by
    intro i hi1 hi2
    have e1 : (esc c ++ A)[i]? = (esc c)[i]? := List.getElem?_append_left hi1
    have e2 : (esc d ++ B)[i]? = (esc d)[i]? := List.getElem?_append_left hi2
    have e3 := pre_getElem_eq h (i := i)
      (by rw [List.length_append]; omega)
    rw [e1, e2] at e3
    exact e3
  by_cases h1 : c = '<'
  · subst h1
    by_cases h2 : d = '&'
    · subst h2
      have := key 1 (by decide) (by decide)
      simp [esc] at this
    by_cases h3 : d = '>'
    · subst h3
      have := key 1 (by decide) (by decide)
      simp [esc] at this
    · have hd1 : esc d = [d] := by simp [esc, h2, Ne.symm hcd, h3]
      have := key 0 (by decide) (by rw [hd1]; simp)
      rw [hd1] at this
      simp [esc] at this
      exact h2 this.symm
  by_cases h4 : c = '>'
  · subst h4
    by_cases h2 : d = '&'
    · subst h2
      have := key 1 (by decide) (by decide)
      simp [esc] at this
    by_cases h5 : d = '<'
    · subst h5
      have := key 1 (by decide) (by decide)
      simp [esc] at this
    · have hd1 : esc d = [d] := by simp [esc, h2, h5, Ne.symm hcd]
      have := key 0 (by decide) (by rw [hd1]; simp)
      rw [hd1] at this
      simp [esc] at this
      exact h2 this.symm
  · have hc1 : esc c = [c] := by simp [esc, hc, h1, h4]
    by_cases h2 : d = '&'
    · subst h2
      have := key 0 (by rw [hc1]; simp) (by decide)
      rw [hc1] at this
      simp [esc] at this
      exact hc this
    by_cases h5 : d = '<'
    · subst h5
      have := key 0 (by rw [hc1]; simp) (by decide)
      rw [hc1] at this
      simp [esc] at this
      exact hc this
    by_cases h6 : d = '>'
    · subst h6
      have := key 0 (by rw [hc1]; simp) (by decide)
      rw [hc1] at this
      simp [esc] at this
      exact hc this
    · have hd1 : esc d = [d] := by simp [esc, h2, h5, h6]
      have := key 0 (by rw [hc1]; simp) (by rw [hd1]; simp)
      rw [hc1, hd1] at this
      simp at this
      exact hcd this

/-- For an `&`-free pattern, escaping preserves the prefix relation in
both directions: entity blocks align only at block boundaries. -/
theorem escL_pre_iff {p s : List Char} (hp : ∀ c ∈ p, c ≠ '&') :
    escL p <+: escL s ↔ p <+: s := by
  induction p generalizing s with
  | nil => simp [escL]
  | cons c p2 ih =>
    have hc : c ≠ '&' := hp c (List.mem_cons_self _ _)
    have hp2 : ∀ a ∈ p2, a ≠ '&' := fun a ha => hp a (List.mem_cons_of_mem _ ha)
    cases s with
    | nil =>
      constructor
      · intro h
        rw [show escL ([] : List Char) = [] from rfl, List.prefix_nil] at h
        exact absurd ((escL_nil_iff _).mp h) (by simp)
      · intro h
        rw [List.prefix_nil] at h
        exact absurd h (by simp)
    | cons d s2 =>
      rw [show escL (c :: p2) = esc c ++ escL p2 from by
            simp [escL, List.flatMap_cons],
          show escL (d :: s2) = esc d ++ escL s2 from by
            simp [escL, List.flatMap_cons]]
      by_cases hcd : c = d
      · subst hcd
        rw [List.prefix_append_right_inj, ih hp2, List.cons_prefix_cons]
        simp
      · constructor
        · intro h
          exact absurd h (esc_head_ne hc hcd _ _)
        · intro h
          exact absurd (List.cons_prefix_cons.mp h).1 hcd

/-- Escaping is injective on `&`-free inputs. -/
theorem escL_inj {p s : List Char} (hamp : ∀ c ∈ p, c ≠ '&') :
    escL p = escL s ↔ p = s := by
  constructor
  · intro h
    have hpre : p <+: s := (escL_pre_iff hamp).mp (by rw [h])
    obtain ⟨t, rfl⟩ := hpre
    rw [escL_append] at h
    have hlen := congrArg List.length h
    rw [List.length_append] at hlen
    have ht : t = [] := (escL_nil_iff t).mp (List.length_eq_zero.mp (by omega))
    rw [ht, List.append_nil]
  · intro h
    rw [h]

/-- Every character strictly inside an entity block is one of the seven
entity-interior characters. -/
theorem esc_tail_mem {d x : Char} (hx : x ∈ (esc d).drop 1) :
    entityTail.contains x = true := by
  unfold esc at hx
  by_cases h1 : d = '&'
  · rw [if_pos h1] at hx
    simp only [List.drop_succ_cons, List.drop_zero] at hx
    fin_cases hx <;> decide
  by_cases h2 : d = '<'
  · rw [if_neg h1, if_pos h2] at hx
    simp only [List.drop_succ_cons, List.drop_zero] at hx
    fin_cases hx <;> decide
  by_cases h3 : d = '>'
  · rw [if_neg h1, if_neg h2, if_pos h3] at hx
    simp only [List.drop_succ_cons, List.drop_zero] at hx
    fin_cases hx <;> decide
  · rw [if_neg h1, if_neg h2, if_neg h3] at hx
    simp at hx

/-- A pattern whose head is not entity-interior never matches starting
strictly inside an entity block. -/
theorem escL_no_tail_match {p : List Char} (hne : p ≠ [])
    (hhd : ∀ c, p.head? = some c → entityTail.contains c = false)
    (hamp : ∀ c ∈ p, c ≠ '&') {d : Char} {k : Nat} (hk : 0 < k)
    (hk2 : k < (esc d).length) (tail : List Char) :
    ¬ (escL p <+: (esc d).drop k ++ tail) := by
  intro h
  cases p with
  | nil => exact hne rfl
  | cons c p2 =>
    have hc : c ≠ '&' := hamp c (List.mem_cons_self _ _)
    have hcT : entityTail.contains c = false := hhd c rfl
    have hLne : escL (c :: p2) ≠ [] := by
      intro hh
      exact absurd ((escL_nil_iff _).mp hh) (by simp)
    have hhead := pre_head_eq h hLne
    have hLhd : (escL (c :: p2)).head? = (esc c).head? := by
      rw [show escL (c :: p2) = esc c ++ escL p2 from by
        simp [escL, List.flatMap_cons]]
      cases he : esc c with
      | nil =>
        have := esc_length_pos c
        rw [he] at this
        simp at this
      | cons e es => simp
    have hdr : (esc d).drop k ≠ [] := by
      intro hh
      have := congrArg List.length hh
      simp only [List.length_drop, List.length_nil] at this
      omega
    obtain ⟨x, xs, hxk⟩ : ∃ x xs, (esc d).drop k = x :: xs := by
      cases hq : (esc d).drop k with
      | nil => exact absurd hq hdr
      | cons x xs => exact ⟨x, xs, rfl⟩
    have hxT : entityTail.contains x = true := by
      apply esc_tail_mem (d := d)
      have hsub : (esc d).drop k ⊆ (esc d).drop 1 := by
        rw [show k = 1 + (k - 1) from by omega, ← List.drop_drop]
        exact List.drop_subset _ _
      exact hsub (by rw [hxk]; exact List.mem_cons_self _ _)
    rw [hLhd, hxk] at hhead
    simp only [List.cons_append, List.head?_cons] at hhead
    by_cases h1 : c = '<'
    · subst h1
      rw [show esc '<' = ['&', 'l', 't', ';'] from by decide] at hhead
      simp only [List.head?_cons, Option.some.injEq] at hhead
      rw [← hhead] at hxT
      exact absurd hxT (by decide)
    by_cases h2 : c = '>'
    · subst h2
      rw [show esc '>' = ['&', 'g', 't', ';'] from by decide] at hhead
      simp only [List.head?_cons, Option.some.injEq] at hhead
      rw [← hhead] at hxT
      exact absurd hxT (by decide)
    · rw [show esc c = [c] from by simp [esc, hc, h1, h2]] at hhead
      simp only [List.head?_cons, Option.some.injEq] at hhead
      rw [← hhead] at hxT
      rw [hxT] at hcT
      exact absurd hcT (by decide)

/-- The escaped image of a raw text position: where position `q` of the
raw text lands in the escaped text. -/
def escPos (text : List Char) (q : Nat) : Nat :=
  (escL (text.take q)).length

theorem escPos_add (text : List Char) (s L : Nat) :
    escPos text (s + L) =
      escPos text s + (escL ((text.drop s).take L)).length := by
  unfold escPos
  rw [List.take_add, escL_append, List.length_append]

theorem escPos_mono (text : List Char) {q s : Nat} (h : q ≤ s) :
    escPos text q ≤ escPos text s := by
  rw [show s = q + (s - q) from by omega, escPos_add]
  omega

theorem escPos_le (text : List Char) (q : Nat) :
    escPos text q ≤ (escL text).length := by
  rw [show escL text = escL (text.take q) ++ escL (text.drop q) from by
    rw [← escL_append, List.take_append_drop]]
  rw [List.length_append]
  unfold escPos
  omega

theorem escPos_len (text : List Char) :
    escPos text text.length = (escL text).length := by
  unfold escPos
  rw [List.take_length]

/-- Dropping up to an escaped position is escaping the dropped raw
text. -/
theorem escL_drop (text : List Char) (q : Nat) :
    (escL text).drop (escPos text q) = escL (text.drop q) := by
  unfold escPos
  rw [show escL text = escL (text.take q) ++ escL (text.drop q) from by
    rw [← escL_append, List.take_append_drop]]
  rw [List.drop_left]

/-- Taking an escaped-prefix length from an escaped text takes the
escaped prefix. -/
theorem escL_take (u : List Char) (k : Nat) :
    (escL u).take (escL (u.take k)).length = escL (u.take k) := by
  rw [show escL u = escL (u.take k) ++ escL (u.drop k) from by
    rw [← escL_append, List.take_append_drop]]
  rw [List.take_left]

/-- The position map is strictly monotone below the text length. -/
theorem escPos_lt {text : List Char} {a b : Nat} (hb : b ≤ text.length) :
    escPos text a < escPos text b ↔ a < b := by
  constructor
  · intro h
    by_contra hc
    push_neg at hc
    exact absurd (escPos_mono text hc) (by omega)
  · intro h
    rw [show b = a + (b - a) from by omega, escPos_add]
    have hne : (text.drop a).take (b - a) ≠ [] := by
      intro hnil
      have := congrArg List.length hnil
      simp only [List.length_take, List.length_drop, List.length_nil] at this
      omega
    have hpos : 0 < (escL ((text.drop a).take (b - a))).length := by
      cases hq : escL ((text.drop a).take (b - a)) with
      | nil => exact absurd ((escL_nil_iff _).mp hq) hne
      | cons x xs => simp
    omega

/-! ## Claim C7: malformed rules never abort classification -/

/-- C7 counterexample: the rule `"a\"` (a lone trailing backslash, no
classifier metacharacter) is escaped into the combined pattern and
matches the span `"a\"`, but its raw pattern fails to compile during
category resolution (`re.error`).  The claim says such a span falls back
to plain-text categorization; in fact the resolver falls back to a
literal string comparison, which succeeds, so the span keeps the rule's
own category `"func"`, not `"text"`. -/
theorem c7_counterexample :
    parseRegex "a\\" = none ∧
    tokenize_with_colors [("a\\", "func")] "a\\" = [("a\\", "func")] ∧
    ("func" : String) ≠ "text" :=
  ⟨rfl, rfl, by decide⟩

/-- C7 amended: (1) if the combined alternation fails to compile, the
classifier returns the whole input as one plain-text segment; (2) a rule
whose raw pattern fails to compile during category resolution falls back
to comparing its pattern text with the span for equality — only that
rule's test degrades, resolution continues with the remaining rules, and
a span becomes plain text only when no rule resolves it. -/
theorem c7_malformed_rule_recovery :
    (∀ (patterns : List (String × String)) (text : String),
      combinedAlts patterns = none →
        tokenize_with_colors patterns text = [(text, "text")]) ∧
    (∀ (p key : String) (rest : List (String × String)) (span : List Char),
      parseRegex p = none →
        resolveColorK ((p, key) :: rest) span =
          if p.data = span then some key else resolveColorK rest span) := by
  constructor
  · intro patterns text hc
    unfold tokenize_with_colors
    split
    · rfl
    · rw [hc]
  · intro p key rest span hp
    simp only [resolveColorK, hp]

/-- Witness for the amended C7: a non-compiling combined pattern
degrades to one plain segment, and a non-compiling rule resolves by
string equality. -/
theorem c7_malformed_rule_recovery_witness :
    tokenize_with_colors [("(", "k")] "xy" = [("xy", "text")] ∧
    resolveColorK [("b\\", "k2")] ['b', '\\'] = some "k2" := by
  constructor
  · exact c7_malformed_rule_recovery.1 [("(", "k")] "xy" rfl
  · rw [c7_malformed_rule_recovery.2 "b\\" "k2" [] ['b', '\\'] rfl]
    decide

/-! ## Claim C3: rule priority -/

/-- Every match emitted by the scan has the combined alternation's match
length at its start position. -/
theorem scanMatches_firstAlt {alts : List Regex} {text : List Char}
    {q fu s L : Nat} (h : (s, L) ∈ scanMatches alts text q fu) :
    firstAltLen alts (text.drop s) = some L := by
  induction fu generalizing q with
  | zero => simp [scanMatches] at h
  | succ fu ih =>
    simp only [scanMatches] at h
    split at h
    · simp at h
    · rename_i s0 L0 hf
      rcases List.mem_cons.mp h with heq | hmem
      · cases heq
        exact (findFrom_some hf).2.2
      · exact ih hmem

/-- If the rules before index `i` do not match and rule `i` does, the
combined alternation's match is rule `i`'s first match. -/
theorem firstAltLen_of_first {alts : List Regex} {s : List Char}
    {i : Nat} {r : Regex}
    (hi : alts[i]? = some r)
    (hfirst : ∀ j rj, j < i → alts[j]? = some rj → mlens rj s = [])
    (hm : mlens r s ≠ []) :
    firstAltLen alts s = (mlens r s).head? := by
  induction alts generalizing i with
  | nil => simp at hi
  | cons r0 rest ih =>
    cases i with
    | zero =>
      simp only [List.getElem?_cons_zero, Option.some_inj] at hi
      rw [← hi] at hm ⊢
      simp only [firstAltLen]
      cases hml : mlens r0 s with
      | nil => exact absurd hml hm
      | cons a t => simp
    | succ j =>
      simp only [List.getElem?_cons_succ] at hi
      have h0 : mlens r0 s = [] :=
        hfirst 0 r0 (Nat.succ_pos j) (by simp)
      simp only [firstAltLen, h0]
      refine ih hi ?_
      intro j' rj' hj' hg
      exact hfirst (j' + 1) rj' (by omega) (by simpa using hg)

theorem contains_nat_iff {l : List Nat} {a : Nat} :
    l.contains a = true ↔ a ∈ l := by
  simp [List.contains, List.elem_iff]

/-- For a span produced at the start of `sfx` by the first matching rule
`i` of the combined alternation, category resolution returns rule `i`'s
category — provided every rule the classifier treats as literal really
parses as its literal text (the registry invariant the spec states). -/
theorem resolveColorK_of_first {patterns : List (String × String)}
    {alts : List Regex} {sfx : List Char} {L i : Nat} {p key : String}
    {r : Regex}
    (hconsist : ∀ pk ∈ patterns, hasMetaImg pk.1 = false →
      parseRegex pk.1 = some (litRegex pk.1.data))
    (hc : combinedAlts patterns = some alts)
    (hp : patterns[i]? = some (p, key))
    (hr : alts[i]? = some r)
    (hfirst : ∀ j rj, j < i → alts[j]? = some rj → mlens rj sfx = [])
    (hL : L ∈ mlens r sfx) :
    resolveColorK patterns (sfx.take L) = some key := by
  induction patterns generalizing alts i with
  | nil => simp at hp
  | cons pk0 prest ih =>
    obtain ⟨p0, k0⟩ := pk0
    have hLle : L ≤ sfx.length := mem_mlens_le hL
    have hspan : (sfx.take L).length = L := by
      simp [List.length_take]; omega
    simp only [combinedAlts] at hc
    split at hc
    · rename_i r0 rs hr0 hrs
      cases hc
      have hparse0 : parseRegex p0 = some r0 := by
        by_cases hmeta : hasMetaImg p0
        · rw [if_pos hmeta] at hr0; exact hr0
        · rw [if_neg hmeta] at hr0
          cases hr0
          exact hconsist (p0, k0) (List.mem_cons_self _ _) (by simpa using hmeta)
      cases i with
      | zero =>
        simp only [List.getElem?_cons_zero, Option.some_inj] at hp hr
        cases hp
        cases hr
        simp only [resolveColorK, hparse0]
        have hfull : fullmatchB r (sfx.take L) = true := by
          unfold fullmatchB
          rw [hspan]
          have hmem : L ∈ mlens r (sfx.take L) := (mlens_take hLle).mp hL
          rw [contains_nat_iff]
          exact hmem
        rw [hfull]
        simp
      | succ j =>
        simp only [List.getElem?_cons_succ] at hp hr
        have h0 : mlens r0 sfx = [] :=
          hfirst 0 r0 (Nat.succ_pos j) (by simp)
        simp only [resolveColorK, hparse0]
        have hfull : fullmatchB r0 (sfx.take L) = false := by
          unfold fullmatchB
          rw [hspan]
          cases hfm : (mlens r0 (sfx.take L)).contains L
          · rfl
          · exfalso
            have hmem : L ∈ mlens r0 (sfx.take L) := contains_nat_iff.mp hfm
            have hpre : sfx.take L <+: sfx := ⟨sfx.drop L, List.take_append_drop L sfx⟩
            have : L ∈ mlens r0 sfx := (mlens_of_pre hpre (by omega)).mp hmem
            rw [h0] at this
            simp at this
        rw [hfull]
        simp only [Bool.false_eq_true, if_false]
        exact ih
          (fun pk hpk hm => hconsist pk (List.mem_cons_of_mem _ hpk) hm)
          hrs hp hr
          (fun j' rj' hj' hg =>
            hfirst (j' + 1) rj' (Nat.succ_lt_succ hj') (by simpa using hg))
    · cases hc

/-- C3 amended: for every pattern list whose literal-classified rules
are genuinely literal (parse as their own text — the spec's registry
invariant), and every input text: the matches emitted by the classifier
are found in left-to-right order, never inside a span already consumed
(`MatchesWF`), and a span emitted at offset `s` carries the category of
the first-listed rule able to match at `s` — in particular, when rule A
precedes rule B and both match at `s` while everything before A does
not, the segment carries A's category. -/
theorem c3_amended_first_rule_priority (patterns : List (String × String))
    (text : String) (alts : List Regex)
    (hconsist : ∀ pk ∈ patterns, hasMetaImg pk.1 = false →
      parseRegex pk.1 = some (litRegex pk.1.data))
    (hc : combinedAlts patterns = some alts) :
    MatchesWF text.data.length
      (scanMatches alts text.data 0 (text.data.length + 1)) 0 ∧
    ∀ (s L : Nat), (s, L) ∈ scanMatches alts text.data 0 (text.data.length + 1) →
      ∀ (i : Nat) (p key : String) (r : Regex),
        patterns[i]? = some (p, key) → alts[i]? = some r →
        (∀ (j : Nat) (rj : Regex), j < i → alts[j]? = some rj →
          mlens rj (text.data.drop s) = []) →
        mlens r (text.data.drop s) ≠ [] →
        resolveColor patterns ((text.data.drop s).take L) = key := by
  refine ⟨scanMatches_wf, ?_⟩
  intro s L hmem i p key r hp hr hfirst hm
  have hfa : firstAltLen alts (text.data.drop s) = some L :=
    scanMatches_firstAlt hmem
  rw [firstAltLen_of_first hr hfirst hm] at hfa
  have hL : L ∈ mlens r (text.data.drop s) := by
    cases hml : mlens r (text.data.drop s) with
    | nil => exact absurd hml hm
    | cons a t =>
      rw [hml] at hfa
      simp at hfa
      simp [hfa]
  unfold resolveColor
  rw [resolveColorK_of_first hconsist hc hp hr hfirst hL]
  rfl

/-- Witness for the amended C3 at a concrete overlap: rules
`ab ↦ k1`, `a ↦ k2` both match `"ab"` at offset 0; the emitted span is
classified `k1`. -/
theorem c3_amended_first_rule_priority_witness :
    resolveColor [("ab", "k1"), ("a", "k2")] (("ab".data.drop 0).take 2) = "k1" := by
  have h := c3_amended_first_rule_priority [("ab", "k1"), ("a", "k2")] "ab"
    [litRegex "ab".data, litRegex "a".data] (by decide) rfl
  exact h.2 0 2 (by decide) 0 "ab" "k1" (litRegex "ab".data) rfl rfl
    (fun j rj hj _ => absurd hj (Nat.not_lt_zero j)) (by decide)

/-- C3 counterexample: with rules `[a.b ↦ K1, a[x]b ↦ K2, axb ↦ K3]` and
text `"axb"`, rule `a[x]b` (K2) precedes rule `axb` (K3) and both match
at offset 0, yet the emitted segment carries `K1`: the combined-match
phase treats `a.b` as a literal (no listed metacharacter) so it cannot
match, but the resolution phase re-reads it as a regex, where `.`
matches `x`.  So the segment's category is neither A's nor B's, refuting
first-listed-wins as stated. -/
theorem c3_counterexample :
    tokenize_with_colors [("a.b", "K1"), ("a[x]b", "K2"), ("axb", "K3")] "axb" =
      [("axb", "K1")] ∧
    ((parseRegex "a[x]b").any fun r => !(mlens r "axb".data).isEmpty) = true ∧
    (mlens (litRegex "axb".data) "axb".data).isEmpty = false ∧
    ("K1" : String) ≠ "K2" :=
  ⟨rfl, rfl, rfl, by decide⟩

/-! ### Claim C6, amended part: for escape-safe rule lists, HTML
escaping commutes with classification -/

theorem contains_char_iff {l : List Char} {a : Char} :
    l.contains a = true ↔ a ∈ l := by
  simp [List.contains, List.elem_iff]

theorem plainChar_spec {c : Char} (h : plainChar c = true) :
    META_IMG.contains c = false ∧ c ≠ '.' ∧ c ≠ '\\' := by
  unfold plainChar at h
  simp only [Bool.and_eq_true, Bool.not_eq_true', decide_eq_true_eq] at h
  exact ⟨h.1.1, h.1.2, h.2⟩

theorem not_mem_meta {c : Char} (h : META_IMG.contains c = false) {d : Char}
    (hd : META_IMG.contains d = true) : c ≠ d := by
  intro hh
  rw [hh, hd] at h
  simp at h

theorem parseLevel_atom_plain {c : Char} (hc : plainChar c = true)
    (rest : List Char) (f : Nat) :
    parseLevel (f + 1) .atomE (c :: rest) = some (.lit c, rest) := by
  obtain ⟨hmeta, hdot, hbsl⟩ := plainChar_spec hc
  have h2 : c ≠ '[' := not_mem_meta hmeta (by decide)
  have h3 : c ≠ '(' := not_mem_meta hmeta (by decide)
  have h5 : (['*', '+', '?', ']', Char.ofNat 123, Char.ofNat 125,
      '^', '$', ')', '|'].contains c) = false := by
    cases hcon : (['*', '+', '?', ']', Char.ofNat 123, Char.ofNat 125,
        '^', '$', ')', '|'].contains c) with
    | false => rfl
    | true =>
      exfalso
      have hmem := contains_char_iff.mp hcon
      fin_cases hmem <;> simp [META_IMG] at hmeta
  simp only [parseLevel]
  split <;> simp_all

theorem parseLevel_post_eq (f : Nat) (s : List Char) :
    parseLevel (f + 1) .postE s =
      (parseLevel f .atomE s).bind (fun a =>
        match a.2 with
        | '*' :: rest₂ => some (.star a.1, rest₂)
        | '+' :: rest₂ => some (.seq a.1 (.star a.1), rest₂)
        | '?' :: rest₂ => some (.alt a.1 .eps, rest₂)
        | _ => some (a.1, a.2)) := rfl

theorem parseLevel_post_plain {c : Char} (hc : plainChar c = true)
    {rest : List Char} (hr : ∀ d ∈ rest, plainChar d = true) (f : Nat) :
    parseLevel (f + 2) .postE (c :: rest) = some (.lit c, rest) := by
  rw [parseLevel_post_eq, parseLevel_atom_plain hc rest f]
  cases rest with
  | nil => rfl
  | cons d rest2 =>
    have hd := hr d (List.mem_cons_self _ _)
    obtain ⟨hmeta, _, _⟩ := plainChar_spec hd
    have g1 : d ≠ '*' := not_mem_meta hmeta (by decide)
    have g2 : d ≠ '+' := not_mem_meta hmeta (by decide)
    have g3 : d ≠ '?' := not_mem_meta hmeta (by decide)
    simp only [Option.bind]
    split <;> simp_all

theorem parseLevel_seq_eq (f : Nat) (s : List Char) :
    parseLevel (f + 1) .seqE s =
      match s with
      | [] => some (.eps, [])
      | ')' :: _ => some (.eps, s)
      | '|' :: _ => some (.eps, s)
      | _ =>
          (parseLevel f .postE s).bind (fun a =>
            (parseLevel f .seqE a.2).bind (fun b =>
              some (.seq a.1 b.1, b.2))) := rfl

theorem parseLevel_seq_plain :
    ∀ (s : List Char), (∀ c ∈ s, plainChar c = true) →
    ∀ f, s.length + 3 ≤ f → parseLevel f .seqE s = some (litRegex s, []) := by
  intro s
  induction s with
  | nil =>
    intro _ f hf
    match f, hf with
    | f + 1, _ =>
      rw [parseLevel_seq_eq]
      rfl
  | cons c s2 ih =>
    intro h f hf
    match f, hf with
    | f + 1, hf =>
      have hc := h c (List.mem_cons_self _ _)
      obtain ⟨hmeta, _, _⟩ := plainChar_spec hc
      have g1 : c ≠ ')' := not_mem_meta hmeta (by decide)
      have g2 : c ≠ '|' := not_mem_meta hmeta (by decide)
      have hpost : parseLevel f .postE (c :: s2) = some (.lit c, s2) := by
        rw [show f = (f - 2) + 2 from by omega]
        exact parseLevel_post_plain hc
          (fun d hd => h d (List.mem_cons_of_mem _ hd)) (f - 2)
      have hrec : parseLevel f .seqE s2 = some (litRegex s2, []) :=
        ih (fun d hd => h d (List.mem_cons_of_mem _ hd)) f
          (by simp at hf ⊢; omega)
      rw [parseLevel_seq_eq]
      split <;> first
        | rfl
        | (simp_all; try rfl)

theorem parseLevel_alt_eq (f : Nat) (s : List Char) :
    parseLevel (f + 1) .altE s =
      (parseLevel f .seqE s).bind (fun r =>
        match r.2 with
        | '|' :: rest₂ =>
            (parseLevel f .altE rest₂).bind (fun r₂ =>
              some (.alt r.1 r₂.1, r₂.2))
        | _ => some (r.1, r.2)) := rfl

theorem parseRegex_plain {p : String}
    (h : ∀ c ∈ p.data, plainChar c = true) :
    parseRegex p = some (litRegex p.data) := by
  unfold parseRegex
  rw [show 4 * p.length + 8 = (4 * p.length + 7) + 1 from rfl]
  rw [parseLevel_alt_eq]
  have hfuel : p.data.length + 3 ≤ 4 * p.length + 7 := by
    have hlen : p.length = p.data.length := rfl
    omega
  rw [parseLevel_seq_plain p.data h (4 * p.length + 7) hfuel]
  rfl

theorem fullmatchB_lit (p s : List Char) :
    fullmatchB (litRegex p) s = decide (p = s) := by
  unfold fullmatchB
  rw [mlens_litRegex, Bool.eq_iff_iff]
  constructor
  · intro hl
    split at hl
    · rename_i hpre
      have := contains_nat_iff.mp hl
      simp only [List.mem_singleton] at this
      exact decide_eq_true (hpre.eq_of_length this.symm)
    · exact absurd (contains_nat_iff.mp hl) (by simp)
  · intro hd
    have he := of_decide_eq_true hd
    subst he
    rw [if_pos List.prefix_rfl, contains_nat_iff]
    simp

theorem hasMetaImg_eq_false {p : String}
    (h : ∀ c ∈ p.data, META_IMG.contains c = false) :
    hasMetaImg p = false := by
  unfold hasMetaImg
  rw [List.any_eq_false]
  intro c hc hcon
  have hmem := contains_char_iff.mp hcon
  have h2 := h c hmem
  rw [contains_char_iff.mpr hc] at h2
  exact absurd h2 (by decide)

theorem combinedAlts_plain {patterns : List (String × String)}
    (h : ∀ pk ∈ patterns, hasMetaImg pk.1 = false) :
    combinedAlts patterns =
      some (patterns.map fun pk => litRegex pk.1.data) := by
  induction patterns with
  | nil => rfl
  | cons pk rest ih =>
    obtain ⟨p, key⟩ := pk
    simp only [combinedAlts, h (p, key) (List.mem_cons_self _ _),
      ih fun pk' h' => h pk' (List.mem_cons_of_mem _ h'),
      Bool.false_eq_true, if_false, List.map_cons]

theorem plainChar_esc {c : Char} (hc : plainChar c = true) :
    ∀ d ∈ esc c, plainChar d = true := by
  intro d hd
  unfold esc at hd
  by_cases h1 : c = '&'
  · rw [if_pos h1] at hd
    fin_cases hd <;> decide
  by_cases h2 : c = '<'
  · rw [if_neg h1, if_pos h2] at hd
    fin_cases hd <;> decide
  by_cases h3 : c = '>'
  · rw [if_neg h1, if_neg h2, if_pos h3] at hd
    fin_cases hd <;> decide
  · rw [if_neg h1, if_neg h2, if_neg h3] at hd
    simp only [List.mem_singleton] at hd
    subst hd
    exact hc

theorem escSafe_spec {p : String} (h : escSafe p = true) :
    p.data ≠ [] ∧ (∀ c ∈ p.data, plainChar c = true ∧ c ≠ '&') ∧
      (∀ c, p.data.head? = some c → entityTail.contains c = false) := by
  unfold escSafe at h
  simp only [Bool.and_eq_true] at h
  obtain ⟨⟨hne, hall⟩, hhd⟩ := h
  refine ⟨?_, ?_, ?_⟩
  · intro hnil
    rw [hnil] at hne
    exact absurd hne (by decide)
  · intro c hc
    have := List.all_eq_true.mp hall c hc
    simp only [Bool.and_eq_true, decide_eq_true_eq] at this
    exact ⟨this.1, this.2⟩
  · intro c hc
    cases hd : p.data with
    | nil =>
      rw [hd] at hc
      simp at hc
    | cons a tl =>
      rw [hd] at hc hhd
      simp only [List.head?_cons, Option.some.injEq] at hc
      subst hc
      simp only [Bool.not_eq_true'] at hhd
      exact hhd

theorem firstAltLen_lit (ps : List (List Char)) (s : List Char) :
    firstAltLen (ps.map litRegex) s =
      (ps.find? fun p => decide (p <+: s)).map List.length := by
  induction ps with
  | nil => rfl
  | cons p ps ih =>
    simp only [List.map_cons, firstAltLen, mlens_litRegex, List.find?]
    by_cases h : p <+: s
    · rw [if_pos h, decide_eq_true h]
      rfl
    · rw [if_neg h, decide_eq_false h]
      exact ih

theorem firstAltLen_esc {ps : List (List Char)} {s : List Char}
    (hamp : ∀ p ∈ ps, ∀ c ∈ p, c ≠ '&') :
    firstAltLen ((ps.map escL).map litRegex) (escL s) =
      (firstAltLen (ps.map litRegex) s).map
        (fun L => (escL (s.take L)).length) := by
  rw [firstAltLen_lit, firstAltLen_lit]
  induction ps with
  | nil => rfl
  | cons p ps ih =>
    simp only [List.map_cons, List.find?]
    have hp := hamp p (List.mem_cons_self _ _)
    by_cases h : p <+: s
    · rw [decide_eq_true h, decide_eq_true ((escL_pre_iff hp).mpr h)]
      have hps : s.take p.length = p := (List.prefix_iff_eq_take.mp h).symm
      simp [hps]
    · rw [decide_eq_false h,
        decide_eq_false (fun hh => h ((escL_pre_iff hp).mp hh))]
      exact ih fun q hq c hcq => hamp q (List.mem_cons_of_mem _ hq) c hcq

theorem resolveColorK_esc {patterns : List (String × String)}
    (hsafe : ∀ pk ∈ patterns, escSafe pk.1 = true) (span : List Char) :
    resolveColorK (escapedPatterns patterns) (escL span) =
      resolveColorK patterns span := by
  induction patterns with
  | nil => rfl
  | cons pk rest ih =>
    obtain ⟨p, key⟩ := pk
    obtain ⟨hne, hch, hhd⟩ :=
      escSafe_spec (hsafe (p, key) (List.mem_cons_self _ _))
    have hamp : ∀ c ∈ p.data, c ≠ '&' := fun c hc => (hch c hc).2
    have hplain : ∀ c ∈ p.data, plainChar c = true := fun c hc => (hch c hc).1
    have hplainesc : ∀ c ∈ (escapePatternHtml p).data, plainChar c = true := by
      rw [escapePatternHtml_data p hamp]
      intro c hc
      obtain ⟨d, hd, hcd⟩ :=
        List.mem_flatMap.mp (show c ∈ p.data.flatMap esc from hc)
      exact plainChar_esc (hplain d hd) c hcd
    simp only [escapedPatterns, List.map_cons, resolveColorK,
      parseRegex_plain hplain, parseRegex_plain hplainesc,
      fullmatchB_lit, escapePatternHtml_data p hamp]
    rw [decide_eq_decide.mpr (escL_inj hamp)]
    by_cases hspan : p.data = span
    · simp [hspan]
    · rw [decide_eq_false hspan]
      simp only [Bool.false_eq_true, if_false]
      exact ih fun pk' h' => hsafe pk' (List.mem_cons_of_mem _ h')

/-- The facts about a rule the scan correspondence needs, at the
character-list level. -/
def SafeP (p : List Char) : Prop :=
  p ≠ [] ∧ (∀ c ∈ p, c ≠ '&') ∧
    (∀ c, p.head? = some c → entityTail.contains c = false)

theorem escSafe_safeP {p : String} (h : escSafe p = true) : SafeP p.data := by
  obtain ⟨h1, h2, h3⟩ := escSafe_spec h
  exact ⟨h1, fun c hc => (h2 c hc).2, h3⟩

theorem firstAltLen_lit_nil {ps : List (List Char)}
    (hne : ∀ p ∈ ps, p ≠ []) :
    firstAltLen (ps.map litRegex) ([] : List Char) = none := by
  rw [firstAltLen_lit,
    List.find?_eq_none.mpr fun p hp h =>
      hne p hp (List.prefix_nil.mp (of_decide_eq_true h))]
  rfl

theorem firstAltLen_esc_interior {ps : List (List Char)}
    (hS : ∀ p ∈ ps, SafeP p) {d : Char} {k : Nat} (hk : 0 < k)
    (hk2 : k < (esc d).length) (rest : List Char) :
    firstAltLen ((ps.map escL).map litRegex)
      ((esc d).drop k ++ escL rest) = none := by
  have hnone : ∀ q ∈ ps.map escL,
      ¬ (decide (q <+: (esc d).drop k ++ escL rest) = true) := by
    intro q hq hpre
    obtain ⟨p, hp, rfl⟩ := List.mem_map.mp hq
    obtain ⟨h1, h2, h3⟩ := hS p hp
    exact escL_no_tail_match h1 h3 h2 hk hk2 (escL rest)
      (of_decide_eq_true hpre)
  rw [firstAltLen_lit, List.find?_eq_none.mpr hnone]
  rfl

theorem findFrom_step_none {alts : List Regex} {etext : List Char} {q : Nat}
    (hq : q ≤ etext.length)
    (hnone : firstAltLen alts (etext.drop q) = none) :
    findFrom alts etext q (etext.length + 1 - q) =
      findFrom alts etext (q + 1) (etext.length + 1 - (q + 1)) := by
  rw [show etext.length + 1 - q = (etext.length - q) + 1 from by omega]
  simp only [findFrom, hnone]
  rw [if_neg (by omega)]
  congr 1
  omega

theorem findFrom_skip_to {alts : List Regex} {etext : List Char} :
    ∀ n a b, b - a = n → a ≤ b → b ≤ etext.length + 1 →
      (∀ j, a ≤ j → j < b → firstAltLen alts (etext.drop j) = none) →
      findFrom alts etext a (etext.length + 1 - a) =
        findFrom alts etext b (etext.length + 1 - b) := by
  intro n
  induction n with
  | zero =>
    intro a b h1 h2 _ _
    have hab : a = b := by omega
    subst hab
    rfl
  | succ n ih =>
    intro a b h1 h2 h3 h4
    have ha : a < b := by omega
    rw [findFrom_step_none (by omega) (h4 a (le_refl a) ha)]
    exact ih (a + 1) b (by omega) (by omega) h3
      (fun j hj1 hj2 => h4 j (by omega) hj2)

/-- The leftmost-match search commutes with escaping: searching the
escaped text from an escaped position finds exactly the image of what
the raw search finds. -/
theorem findFrom_esc {ps : List (List Char)} (hS : ∀ p ∈ ps, SafeP p)
    (text : List Char) :
    ∀ n q, text.length - q = n → q ≤ text.length →
    findFrom ((ps.map escL).map litRegex) (escL text) (escPos text q)
        ((escL text).length + 1 - escPos text q) =
      (findFrom (ps.map litRegex) text q (text.length + 1 - q)).map
        (fun m => (escPos text m.1,
          (escL ((text.drop m.1).take m.2)).length)) := by
  have hamp : ∀ p ∈ ps, ∀ c ∈ p, c ≠ '&' := fun p hp => (hS p hp).2.1
  have hne : ∀ p ∈ ps, p ≠ [] := fun p hp => (hS p hp).1
  have hneE : ∀ p ∈ ps.map escL, p ≠ [] := by
    intro p hp
    obtain ⟨p0, hp0, rfl⟩ := List.mem_map.mp hp
    intro hnil
    exact hne p0 hp0 ((escL_nil_iff p0).mp hnil)
  intro n
  induction n with
  | zero =>
    intro q hq1 hq2
    have hq : q = text.length := by omega
    subst hq
    rw [escPos_len,
      show (escL text).length + 1 - (escL text).length = 0 + 1 from by omega,
      show text.length + 1 - text.length = 0 + 1 from by omega]
    simp only [findFrom]
    rw [if_neg (by omega), if_neg (by omega), List.drop_length,
      List.drop_length, firstAltLen_lit_nil hneE, firstAltLen_lit_nil hne]
    rfl
  | succ n ih =>
    intro q hq1 hq2
    have hqlt : q < text.length := by omega
    cases hdq : text.drop q with
    | nil =>
      exfalso
      have := congrArg List.length hdq
      simp only [List.length_drop, List.length_nil] at this
      omega
    | cons c rest =>
      rw [show text.length + 1 - q = (text.length - q) + 1 from by omega]
      simp only [findFrom]
      rw [if_neg (by omega)]
      cases hfa : firstAltLen (ps.map litRegex) (text.drop q) with
      | some L =>
        have hescfa : firstAltLen ((ps.map escL).map litRegex)
            ((escL text).drop (escPos text q)) =
            some ((escL ((text.drop q).take L)).length) := by
          rw [escL_drop, firstAltLen_esc hamp, hfa]
          rfl
        rw [show (escL text).length + 1 - escPos text q =
            ((escL text).length - escPos text q) + 1 from by
          have := escPos_le text q
          omega]
        simp only [findFrom, hescfa, hfa]
        rw [if_neg (by have := escPos_le text q; omega)]
        rfl
      | none =>
        rw [show text.length - q = text.length + 1 - (q + 1) from by omega]
        have hesc0 : firstAltLen ((ps.map escL).map litRegex)
            ((escL text).drop (escPos text q)) = none := by
          rw [escL_drop, firstAltLen_esc hamp, hfa]
          rfl
        have hstep : escPos text (q + 1) = escPos text q + (esc c).length := by
          rw [escPos_add, hdq]
          simp [escL]
        have hskip : findFrom ((ps.map escL).map litRegex) (escL text)
            (escPos text q) ((escL text).length + 1 - escPos text q) =
            findFrom ((ps.map escL).map litRegex) (escL text)
              (escPos text (q + 1))
              ((escL text).length + 1 - escPos text (q + 1)) := by
          apply findFrom_skip_to ((esc c).length) (escPos text q)
            (escPos text (q + 1)) (by rw [hstep]; omega)
            (by rw [hstep]; omega)
            (by have := escPos_le text (q + 1); omega)
          intro j hj1 hj2
          obtain ⟨k, rfl⟩ : ∃ k, j = escPos text q + k :=
            ⟨j - escPos text q, by omega⟩
          by_cases hk0 : k = 0
          · subst hk0
            rw [Nat.add_zero]
            exact hesc0
          · have hkpos : 0 < k := by omega
            have hkle : k < (esc c).length := by
              rw [hstep] at hj2
              omega
            have hdropj : (escL text).drop (escPos text q + k) =
                (esc c).drop k ++ escL rest := by
              rw [← List.drop_drop, escL_drop, hdq,
                show escL (c :: rest) = esc c ++ escL rest from by
                  simp [escL, List.flatMap_cons],
                List.drop_append_of_le_length (by omega)]
            rw [hdropj]
            exact firstAltLen_esc_interior hS hkpos hkle rest
        rw [hskip, ih (q + 1) (by omega) (by omega)]

/-- `re.finditer` commutes with escaping: the matches on the escaped
text are exactly the images of the matches on the raw text. -/
theorem scanMatches_esc {ps : List (List Char)} (hS : ∀ p ∈ ps, SafeP p)
    (text : List Char) :
    ∀ fr fe q, q ≤ text.length → text.length - q < fr →
      (escL text).length - escPos text q < fe →
    scanMatches ((ps.map escL).map litRegex) (escL text) (escPos text q) fe =
      (scanMatches (ps.map litRegex) text q fr).map
        (fun m => (escPos text m.1,
          (escL ((text.drop m.1).take m.2)).length)) := by
  intro fr
  induction fr with
  | zero =>
    intro fe q hq h2 h3
    exact absurd h2 (by omega)
  | succ fr ih =>
    intro fe q hq h2 h3
    cases fe with
    | zero => exact absurd h3 (by omega)
    | succ fe =>
      simp only [scanMatches]
      rw [findFrom_esc hS text (text.length - q) q rfl hq]
      cases hf : findFrom (ps.map litRegex) text q (text.length + 1 - q) with
      | none => simp
      | some m =>
        obtain ⟨s, L⟩ := m
        obtain ⟨hqs, hsle, hfa⟩ := findFrom_some hf
        obtain ⟨r, hr, hmem⟩ := firstAltLen_some hfa
        obtain ⟨p, hp, rfl⟩ := List.mem_map.mp hr
        rw [mlens_litRegex] at hmem
        have hLp : p <+: text.drop s ∧ L = p.length := by
          by_cases hpre : p <+: text.drop s
          · rw [if_pos hpre] at hmem
            simp only [List.mem_singleton] at hmem
            exact ⟨hpre, hmem⟩
          · rw [if_neg hpre] at hmem
            simp at hmem
        have hL0 : 0 < L := by
          rw [hLp.2]
          cases hpp : p with
          | nil => exact absurd hpp (hS p hp).1
          | cons a t => simp
        have hLlen : s + L ≤ text.length := by
          have h5 := hLp.1.length_le
          rw [List.length_drop] at h5
          have h6 := hLp.2
          omega
        have heL0 : 0 < (escL ((text.drop s).take L)).length := by
          have hspan_ne : (text.drop s).take L ≠ [] := by
            intro hnil
            have := congrArg List.length hnil
            simp only [List.length_take, List.length_drop,
              List.length_nil] at this
            omega
          cases hq2 : escL ((text.drop s).take L) with
          | nil => exact absurd ((escL_nil_iff _).mp hq2) hspan_ne
          | cons x xs => simp
        simp only [Option.map_some']
        rw [if_neg (by omega), if_neg (by omega)]
        rw [show escPos text s + (escL ((text.drop s).take L)).length =
          escPos text (s + L) from (escPos_add text s L).symm]
        rw [List.map_cons]
        congr 1
        have hm1 : escPos text q ≤ escPos text s := escPos_mono text hqs
        have hm2 := escPos_add text s L
        have hm3 : escPos text q < (escL text).length := by
          rw [← escPos_len text]
          exact (escPos_lt (le_refl text.length)).mpr (by omega)
        exact ih fe (s + L) (by omega) (by omega) (by omega)

theorem resolveColor_esc {patterns : List (String × String)}
    (hsafe : ∀ pk ∈ patterns, escSafe pk.1 = true) (span : List Char) :
    resolveColor (escapedPatterns patterns) (escL span) =
      resolveColor patterns span := by
  unfold resolveColor
  rw [resolveColorK_esc hsafe span]

/-- Segment assembly commutes with escaping: gaps and spans map to their
escaped images, categories are resolved identically. -/
theorem assembleSegs_esc {patterns : List (String × String)}
    (hsafe : ∀ pk ∈ patterns, escSafe pk.1 = true) (text : List Char) :
    ∀ (ms : List (Nat × Nat)) (lastEnd : Nat),
      MatchesWF text.length ms lastEnd → lastEnd ≤ text.length →
    assembleSegs (escapedPatterns patterns) (escL text)
        (ms.map fun m => (escPos text m.1,
          (escL ((text.drop m.1).take m.2)).length))
        (escPos text lastEnd) =
      (assembleSegs patterns text ms lastEnd).map
        (fun seg => (String.mk (escL seg.1.data), seg.2)) := by
  intro ms
  induction ms with
  | nil =>
    intro lastEnd hwf hle
    simp only [List.map_nil, assembleSegs]
    by_cases h : lastEnd < text.length
    · rw [if_pos h, if_pos (by
        rw [← escPos_len text]
        exact (escPos_lt (le_refl text.length)).mpr h)]
      simp only [List.map_cons, List.map_nil]
      rw [escL_drop]
    · rw [if_neg h, if_neg (by
        intro hcon
        rw [← escPos_len text] at hcon
        exact h ((escPos_lt (le_refl text.length)).mp hcon))]
      rfl
  | cons m ms2 ih =>
    intro lastEnd hwf hle
    obtain ⟨s, L⟩ := m
    obtain ⟨h1, h2, h3⟩ := hwf
    have hsle : s ≤ text.length := by omega
    simp only [List.map_cons, assembleSegs, List.map_append]
    have hspanT : ((escL text).drop (escPos text s)).take
        ((escL ((text.drop s).take L)).length) =
        escL ((text.drop s).take L) := by
      rw [escL_drop]
      exact escL_take (text.drop s) L
    have hgapT : ((escL text).drop (escPos text lastEnd)).take
        (escPos text s - escPos text lastEnd) =
        escL ((text.drop lastEnd).take (s - lastEnd)) := by
      rw [escL_drop]
      have hd : escPos text s - escPos text lastEnd =
          (escL ((text.drop lastEnd).take (s - lastEnd))).length := by
        have hadd := escPos_add text lastEnd (s - lastEnd)
        rw [show lastEnd + (s - lastEnd) = s from by omega] at hadd
        omega
      rw [hd]
      exact escL_take (text.drop lastEnd) (s - lastEnd)
    have hnext : escPos text s + (escL ((text.drop s).take L)).length =
        escPos text (s + L) := (escPos_add text s L).symm
    have hrec := ih (s + L) h3 (by omega)
    by_cases hgap : lastEnd < s
    · rw [if_pos hgap, if_pos ((escPos_lt hsle).mpr hgap),
        hgapT, hspanT, hnext, resolveColor_esc hsafe, hrec]
      simp only [List.map_cons, List.map_nil]
    · rw [if_neg hgap, if_neg (fun hcon => hgap ((escPos_lt hsle).mp hcon)),
        hspanT, hnext, resolveColor_esc hsafe, hrec]
      simp only [List.map_cons, List.map_nil]

theorem escape_html_eq_mk (t : String) :
    escape_html t = String.mk (escL t.data) := by
  unfold escape_html
  rw [escape_html_list]

/-- C6 amended: the markup-side and raw-side classifications agree on
every rule list whose rules are escape-safe (non-empty, genuinely
literal — no classifier metacharacter, `.` or `\` — free of `&`, and not
starting with an entity-interior character), as every deepseek-v3.1
registry rule is: for every input text, classifying the HTML-escaped
text against the HTML-escaped patterns yields exactly the raw
classification with each segment's text HTML-escaped — same segment
boundaries, same categories. -/
theorem c6_amended_escape_agreement (patterns : List (String × String))
    (text : String)
    (hsafe : ∀ pk ∈ patterns, escSafe pk.1 = true) :
    tokenize_with_colors (escapedPatterns patterns) (escape_html text) =
      (tokenize_with_colors patterns text).map
        (fun seg => (escape_html seg.1, seg.2)) := by
  by_cases hP : patterns = []
  · subst hP
    rfl
  · have hPne : patterns.isEmpty = false := by
      cases patterns with
      | nil => exact absurd rfl hP
      | cons a b => rfl
    have hPEne : (escapedPatterns patterns).isEmpty = false := by
      cases patterns with
      | nil => exact absurd rfl hP
      | cons a b => rfl
    have hmeta : ∀ pk ∈ patterns, hasMetaImg pk.1 = false := by
      intro pk hpk
      obtain ⟨hne, hch, hhd⟩ := escSafe_spec (hsafe pk hpk)
      exact hasMetaImg_eq_false fun c hc => (plainChar_spec (hch c hc).1).1
    have hmetaE : ∀ pk ∈ escapedPatterns patterns,
        hasMetaImg pk.1 = false := by
      intro pk hpk
      obtain ⟨pk0, hpk0, rfl⟩ := List.mem_map.mp hpk
      obtain ⟨hne, hch, hhd⟩ := escSafe_spec (hsafe pk0 hpk0)
      have hamp : ∀ c ∈ pk0.1.data, c ≠ '&' := fun c hc => (hch c hc).2
      apply hasMetaImg_eq_false
      intro c hc
      rw [show ((escapePatternHtml pk0.1, pk0.2) : String × String).1 =
        escapePatternHtml pk0.1 from rfl, escapePatternHtml_data _ hamp] at hc
      obtain ⟨d, hd, hcd⟩ :=
        List.mem_flatMap.mp (show c ∈ pk0.1.data.flatMap esc from hc)
      exact (plainChar_spec (plainChar_esc (hch d hd).1 c hcd)).1
    have hA := combinedAlts_plain hmeta
    have hE := combinedAlts_plain hmetaE
    have hEeq : (escapedPatterns patterns).map (fun pk => litRegex pk.1.data) =
        ((patterns.map fun pk => pk.1.data).map escL).map litRegex := by
      unfold escapedPatterns
      rw [List.map_map, List.map_map, List.map_map]
      apply List.map_congr_left
      intro pk hpk
      obtain ⟨hne, hch, hhd⟩ := escSafe_spec (hsafe pk hpk)
      have hamp : ∀ c ∈ pk.1.data, c ≠ '&' := fun c hc => (hch c hc).2
      show litRegex (escapePatternHtml pk.1).data = litRegex (escL pk.1.data)
      rw [escapePatternHtml_data _ hamp]
    have hAeq : patterns.map (fun pk => litRegex pk.1.data) =
        (patterns.map fun pk => pk.1.data).map litRegex := by
      rw [List.map_map]
      rfl
    have hS : ∀ p ∈ patterns.map (fun pk => pk.1.data), SafeP p := by
      intro p hp
      obtain ⟨pk, hpk, rfl⟩ := List.mem_map.mp hp
      exact escSafe_safeP (hsafe pk hpk)
    unfold tokenize_with_colors
    simp only [hPne, hPEne, Bool.false_eq_true, if_false, hA, hE]
    rw [escape_html_data, hEeq, hAeq]
    have hscan := scanMatches_esc hS text.data (text.data.length + 1)
      ((escL text.data).length + 1) 0 (by omega) (by omega)
      (by rw [show escPos text.data 0 = 0 from rfl]; omega)
    rw [show escPos text.data 0 = 0 from rfl] at hscan
    rw [hscan]
    have hasm := assembleSegs_esc hsafe text.data
      (scanMatches ((patterns.map fun pk => pk.1.data).map litRegex)
        text.data 0 (text.data.length + 1)) 0 scanMatches_wf (by omega)
    rw [show escPos text.data 0 = 0 from rfl] at hasm
    rw [hasm]
    apply List.map_congr_left
    intro seg hseg
    rw [escape_html_eq_mk]

/-- Witness for the amended C6 at the deepseek-v3.1 registry rule list:
every rule is escape-safe, and the theorem applies. -/
theorem c6_amended_escape_agreement_witness :
    (∀ pk ∈ deepseekConfig.token_patterns, escSafe pk.1 = true) ∧
    tokenize_with_colors (escapedPatterns deepseekConfig.token_patterns)
        (escape_html "<think>ok</think>") =
      (tokenize_with_colors deepseekConfig.token_patterns
        "<think>ok</think>").map (fun seg => (escape_html seg.1, seg.2)) :=
  ⟨by decide, c6_amended_escape_agreement deepseekConfig.token_patterns
    "<think>ok</think>" (by decide)⟩

/-! ## JSON parsing (models the stdlib `json.loads`)

`json.loads` is external to the repository; it is modelled by an
executable recursive-descent parser over the JSON grammar (objects,
arrays, strings with the simple escapes, integers, `true`/`false`/
`null`).  `none` models `json.JSONDecodeError`. -/

/-- Skip JSON whitespace. -/
def skipWs : List Char → List Char
  | [] => []
  | c :: rest =>
      if c = ' ' ∨ c = '\t' ∨ c = '\n' ∨ c = '\r' then skipWs rest
      else c :: rest

/-- Body of a JSON string after the opening quote; `acc` is the reversed
content read so far. -/
def parseJStrBody (acc : List Char) : Nat → List Char → Option (List Char × List Char)
  | 0, _ => none
  | _ + 1, [] => none
  | _ + 1, '"' :: rest => some (acc.reverse, rest)
  | f + 1, '\\' :: c :: rest =>
      if c = '"' ∨ c = '\\' ∨ c = '/' then parseJStrBody (c :: acc) f rest
      else if c = 'n' then parseJStrBody ('\n' :: acc) f rest
      else if c = 't' then parseJStrBody ('\t' :: acc) f rest
      else if c = 'r' then parseJStrBody ('\r' :: acc) f rest
      else if c = 'b' then parseJStrBody (Char.ofNat 8 :: acc) f rest
      else if c = 'f' then parseJStrBody (Char.ofNat 12 :: acc) f rest
      else none
  | f + 1, c :: rest =>
      if c = '\\' then none else parseJStrBody (c :: acc) f rest

/-- Decimal digits to a number. -/
def digitsToNat (ds : List Char) : Nat :=
  ds.foldl (fun n c => n * 10 + (c.toNat - 48)) 0

/-- States of the JSON value parser: a value, an object body with the
fields read so far, an array body with the elements read so far. -/
inductive JMode where
  | val : JMode
  | obj : List (String × PyVal) → JMode
  | arr : List PyVal → JMode

/-- The JSON parser; one fueled function for values, object bodies and
array bodies so that recursion is structural on the fuel. -/
def parseJ : Nat → JMode → List Char → Option (PyVal × List Char)
  | 0, _, _ => none
  | f + 1, .val, s =>
      match skipWs s with
      | [] => none
      | c :: rest =>
          if c = '"' then
            match parseJStrBody [] (rest.length + 1) rest with
            | some (cs, r) => some (.pstr (String.mk cs), r)
            | none => none
          else if c = Char.ofNat 123 then parseJ f (.obj []) rest
          else if c = '[' then parseJ f (.arr []) rest
          else if c = 't' then
            match rest with
            | 'r' :: 'u' :: 'e' :: r => some (.pbool true, r)
            | _ => none
          else if c = 'f' then
            match rest with
            | 'a' :: 'l' :: 's' :: 'e' :: r => some (.pbool false, r)
            | _ => none
          else if c = 'n' then
            match rest with
            | 'u' :: 'l' :: 'l' :: r => some (.pnull, r)
            | _ => none
          else if c = '-' then
            match rest.span fun d => d.isDigit with
            | ([], _) => none
            | (ds, r) => some (.pint (-(digitsToNat ds : Int)), r)
          else if c.isDigit then
            match (c :: rest).span fun d => d.isDigit with
            | (ds, r) => some (.pint (digitsToNat ds : Int), r)
          else none
  | f + 1, .obj acc, s =>
      match skipWs s with
      | [] => none
      | c :: rest =>
          if c = Char.ofNat 125 then
            if acc.isEmpty then some (.pdict [], rest) else none
          else if c = '"' then
            match parseJStrBody [] (rest.length + 1) rest with
            | none => none
            | some (k, r₁) =>
                match skipWs r₁ with
                | ':' :: r₂ =>
                    match parseJ f .val r₂ with
                    | none => none
                    | some (v, r₃) =>
                        match skipWs r₃ with
                        | ',' :: r₄ => parseJ f (.obj ((String.mk k, v) :: acc)) r₄
                        | c₂ :: r₄ =>
                            if c₂ = Char.ofNat 125 then
                              some (.pdict ((String.mk k, v) :: acc).reverse, r₄)
                            else none
                        | [] => none
                | _ => none
          else none
  | f + 1, .arr acc, s =>
      match skipWs s with
      | [] => none
      | c :: rest =>
          if c = ']' then
            if acc.isEmpty then some (.plist [], rest) else none
          else
            match parseJ f .val (c :: rest) with
            | none => none
            | some (v, r₁) =>
                match skipWs r₁ with
                | ',' :: r₂ => parseJ f (.arr (v :: acc)) r₂
                | ']' :: r₂ => some (.plist (v :: acc).reverse, r₂)
                | _ => none

/-- `json.loads`: parse a complete JSON document. -/
def json_loads (s : String) : Option PyVal :=
  match parseJ (s.length + 4) .val s.data with
  | some (v, rest) => if (skipWs rest).isEmpty then some v else none
  | none => none

example : json_loads "\x7b\"query\": \"x\"\x7d" =
    some (.pdict [("query", .pstr "x")]) := rfl
example : json_loads "not json" = none := rfl
example : json_loads "[1, -2, true, null]" =
    some (.plist [.pint 1, .pint (-2), .pbool true, .pnull]) := rfl

/-! ## The message normalizer (`prepare_messages`, template_renderer.py) -/

/-- Python dict read: `d.get(k)` / `k in d` / `d[k]`. -/
def dictGet : List (String × PyVal) → String → Option PyVal
  | [], _ => none
  | (k', v') :: rest, k => if k' = k then some v' else dictGet rest k

/-- Python dict write `d[k] = v`: replace in place, preserving insertion
order; append when the key is new. -/
def dictSet : List (String × PyVal) → String → PyVal → List (String × PyVal)
  | [], k, v => [(k, v)]
  | (k', v') :: rest, k, v =>
      if k' = k then (k', v) :: rest else (k', v') :: dictSet rest k v

/-- Python truthiness, for `msg_copy["tool_calls"]` in a condition. -/
def truthy : PyVal → Bool
  | .pnull => false
  | .pbool b => b
  | .pint n => n != 0
  | .pstr s => !s.isEmpty
  | .plist xs => !xs.isEmpty
  | .pdict kvs => !kvs.isEmpty

/-- The `arguments` coercion of `prepare_messages`: when the function
payload carries string arguments, parse them as JSON; a parse failure
becomes an empty mapping.  A non-dict payload is left unchanged (the
source would only meet dicts here). -/
def coerceFunc (fv : PyVal) : PyVal :=
  match fv with
  | .pdict fkvs =>
      match dictGet fkvs "arguments" with
      | some (.pstr s) =>
          .pdict (dictSet fkvs "arguments" ((json_loads s).getD (.pdict [])))
      | _ => .pdict fkvs
  | v => v

/-- One tool call of `prepare_messages`: `tc_copy = tc.copy()`, coerce
the `function` payload when present. -/
def prepTC (tc : PyVal) : PyVal :=
  match tc with
  | .pdict kvs =>
      match dictGet kvs "function" with
      | some fv => .pdict (dictSet kvs "function" (coerceFunc fv))
      | none => .pdict kvs
  | v => v

/-- One message of `prepare_messages`: when `tool_calls` is present and
truthy, rebuild it with every call's arguments coerced. -/
def prepMsg (msg : PyVal) : PyVal :=
  match msg with
  | .pdict kvs =>
      match dictGet kvs "tool_calls" with
      | some tcv =>
          if truthy tcv then
            match tcv with
            | .plist tcs =>
                .pdict (dictSet kvs "tool_calls" (.plist (tcs.map prepTC)))
            | _ => .pdict kvs
          else .pdict kvs
      | none => .pdict kvs
  | v => v

/-- `prepare_messages` (template_renderer.py lines 44-71), as a value
transformation: each message is processed independently. -/
def prepare_messages (messages : List PyVal) : List PyVal :=
  messages.map prepMsg

/-! ## Claim C5: tool-call argument coercion -/

/-- A message carrying one tool call with JSON-string arguments and one
with a non-JSON string. -/
def c5TestMsg : PyVal :=
  .pdict [
    ("role", .pstr "assistant"),
    ("content", .pnull),
    ("tool_calls", .plist [
      .pdict [("type", .pstr "function"),
        ("function", .pdict [("name", .pstr "search"),
          ("arguments", .pstr "\x7b\"query\": \"x\"\x7d")])],
      .pdict [("type", .pstr "function"),
        ("function", .pdict [("name", .pstr "lookup"),
          ("arguments", .pstr "not json")])]])]

/-- The same message after normalization: the JSON string became the
structured mapping, the non-JSON string became an empty mapping. -/
def c5ExpectedMsg : PyVal :=
  .pdict [
    ("role", .pstr "assistant"),
    ("content", .pnull),
    ("tool_calls", .plist [
      .pdict [("type", .pstr "function"),
        ("function", .pdict [("name", .pstr "search"),
          ("arguments", .pdict [("query", .pstr "x")])])],
      .pdict [("type", .pstr "function"),
        ("function", .pdict [("name", .pstr "lookup"),
          ("arguments", .pdict [])])]])]

/-- C5: normalization coerces string-encoded tool-call arguments — a
JSON string becomes the parsed mapping, a non-JSON string becomes an
empty mapping, nothing is raised (the function is total), and
normalization of the surrounding messages is unaffected (the normalizer
maps over messages independently). -/
theorem c5_tool_call_argument_coercion :
    json_loads "\x7b\"query\": \"x\"\x7d" =
      some (.pdict [("query", .pstr "x")]) ∧
    json_loads "not json" = none ∧
    ∀ pre post : List PyVal,
      prepare_messages (pre ++ c5TestMsg :: post) =
        prepare_messages pre ++ c5ExpectedMsg :: prepare_messages post := by
  refine ⟨rfl, rfl, ?_⟩
  intro pre post
  unfold prepare_messages
  rw [List.map_append, List.map_cons]
  have h : prepMsg c5TestMsg = c5ExpectedMsg := rfl
  rw [h]

/-! ## The template context (`render_template`, template_renderer.py) -/

/-- A Python dict literal with `**`-splices: entries are inserted left to
right, so a later key overrides an earlier one. -/
def dictLit (entries : List (String × PyVal)) : List (String × PyVal) :=
  entries.foldl (fun d kv => dictSet d kv.1 kv.2) []

/-- The template context of `render_template` (lines 108-117): messages,
tools (`tools if tools else None`: `None` both for `None` and for an
empty list), the generation-prompt flag, the model's sentence tokens,
then the model's default template variables, then the caller's extra
variables — later entries override earlier ones of the same name. -/
def buildContext (config : ModelConfig) (preparedMessages : List PyVal)
    (tools : Option (List PyVal)) (add_generation_prompt : Bool)
    (extra_vars : List (String × PyVal)) : List (String × PyVal) :=
  dictLit ([
    ("messages", .plist preparedMessages),
    ("tools", match tools with
      | none => .pnull
      | some [] => .pnull
      | some ts => .plist ts),
    ("add_generation_prompt", .pbool add_generation_prompt),
    ("bos_token", .pstr config.bos_token),
    ("eos_token", .pstr config.eos_token)] ++
    config.template_vars ++ extra_vars)

theorem dictGet_dictSet (d : List (String × PyVal)) (k k' : String) (v : PyVal) :
    dictGet (dictSet d k v) k' = if k' = k then some v else dictGet d k' := by
  induction d with
  | nil =>
    simp only [dictSet, dictGet]
    by_cases h : k' = k
    · rw [if_pos h, if_pos h.symm]
    · rw [if_neg h, if_neg fun hk => h hk.symm]
  | cons kv rest ih =>
    obtain ⟨k₀, v₀⟩ := kv
    simp only [dictSet]
    by_cases h0 : k₀ = k
    · subst h0
      rw [if_pos rfl]
      simp only [dictGet]
      by_cases h' : k₀ = k'
      · rw [if_pos h', if_pos h'.symm]
      · rw [if_neg h', if_neg fun hk => h' hk.symm]
        simp [dictGet, h']
    · rw [if_neg h0]
      simp only [dictGet]
      by_cases h1 : k₀ = k'
      · rw [if_pos h1, if_pos h1,
          if_neg fun hk => h0 (h1.trans hk)]
      · rw [if_neg h1, if_neg h1]
        exact ih

/-- Folding `dictSet` over entries none of which carries key `k` does
not change the binding of `k`. -/
theorem foldl_dictSet_no_key {l : List (String × PyVal)}
    {d : List (String × PyVal)} {k : String}
    (h : ∀ kv ∈ l, kv.1 ≠ k) :
    dictGet (l.foldl (fun d kv => dictSet d kv.1 kv.2) d) k = dictGet d k := by
  induction l generalizing d with
  | nil => rfl
  | cons kv rest ih =>
    simp only [List.foldl_cons]
    rw [ih fun kv' hkv' => h kv' (List.mem_cons_of_mem _ hkv')]
    rw [dictGet_dictSet]
    rw [if_neg fun hk => h kv (List.mem_cons_self _ _) hk.symm]

/-- The last binding of a key in an entry list (what a Python dict
literal retains for a duplicated key). -/
def lastLookup : List (String × PyVal) → String → Option PyVal
  | [], _ => none
  | (k', v') :: rest, k =>
      match lastLookup rest k with
      | some v => some v
      | none => if k = k' then some v' else none

theorem lastLookup_none {l : List (String × PyVal)} {k : String}
    (h : lastLookup l k = none) : ∀ kv ∈ l, kv.1 ≠ k := by
  induction l with
  | nil => intro kv hkv; simp at hkv
  | cons kv₀ rest ih =>
    obtain ⟨k₀, v₀⟩ := kv₀
    intro kv hkv
    simp only [lastLookup] at h
    cases hl : lastLookup rest k with
    | some w => rw [hl] at h; cases h
    | none =>
      rw [hl] at h
      rcases List.mem_cons.mp hkv with rfl | hmem
      · intro hk
        rw [if_pos hk.symm] at h
        cases h
      · exact ih hl kv hmem

/-- Folding `dictSet` over entries realizes the last binding of a key
present among them. -/
theorem foldl_dictSet_last {l : List (String × PyVal)}
    {d : List (String × PyVal)} {k : String} {v : PyVal}
    (h : lastLookup l k = some v) :
    dictGet (l.foldl (fun d kv => dictSet d kv.1 kv.2) d) k = some v := by
  induction l generalizing d with
  | nil => simp [lastLookup] at h
  | cons kv₀ rest ih =>
    obtain ⟨k₀, v₀⟩ := kv₀
    simp only [lastLookup] at h
    simp only [List.foldl_cons]
    cases hl : lastLookup rest k with
    | some w =>
      rw [hl] at h
      cases h
      exact ih hl
    | none =>
      rw [hl] at h
      by_cases hk : k = k₀
      · rw [if_pos hk] at h
        cases h
        rw [foldl_dictSet_no_key (lastLookup_none hl), dictGet_dictSet,
          if_pos hk]
      · rw [if_neg hk] at h
        cases h

/-- A registry model never carries a default template variable named
`tools`. -/
theorem template_vars_no_tools {key : String} {cfg : ModelConfig}
    (h : lookupModel key = some cfg) :
    ∀ kv ∈ cfg.template_vars, kv.1 ≠ "tools" := by
  have hmem : ∃ kv ∈ MODELS, kv.2 = cfg := by
    unfold lookupModel at h
    cases hf : MODELS.find? fun kv => kv.1 = key with
    | none => rw [hf] at h; cases h
    | some kv =>
      rw [hf] at h
      have h' : kv.2 = cfg := by simpa using h
      exact ⟨kv, List.mem_of_find?_eq_some hf, h'⟩
  obtain ⟨kv, hkv, rfl⟩ := hmem
  unfold MODELS at hkv
  rcases List.mem_cons.mp hkv with rfl | hkv
  · intro x hx
    simp only [deepseekConfig, List.mem_cons, List.not_mem_nil, or_false] at hx
    subst hx
    decide
  rcases List.mem_cons.mp hkv with rfl | hkv
  · intro x hx
    simp only [qwen3Config, List.mem_cons, List.not_mem_nil, or_false] at hx
    subst hx
    decide
  rcases List.mem_cons.mp hkv with rfl | hkv
  · intro x hx
    simp only [glmConfig, List.mem_cons, List.not_mem_nil, or_false] at hx
    subst hx
    decide
  rcases List.mem_cons.mp hkv with rfl | hkv
  · intro x hx
    simp only [minimaxConfig] at hx
    simp at hx
  · simp at hkv

/-! ## Claim C8: the `tools` binding and caller overrides -/

/-- C8: in the context built for a known model, passing no tools or an
empty tool list binds `tools` to Python `None` (the explicit absent
marker, distinct from an empty list), provided the caller's extra
variables do not themselves bind `tools` (Python would reject such a
call with a duplicate-keyword `TypeError`); and every caller-supplied
extra variable overrides any model default of the same name — the
context realizes the caller's (last) binding. -/
theorem c8_context_tools_and_overrides :
    ∀ (key : String) (cfg : ModelConfig), lookupModel key = some cfg →
    ∀ (prepared : List PyVal) (tools : Option (List PyVal)) (flag : Bool)
      (extra_vars : List (String × PyVal)),
      ((tools = none ∨ tools = some []) →
        (∀ kv ∈ extra_vars, kv.1 ≠ "tools") →
        dictGet (buildContext cfg prepared tools flag extra_vars) "tools" =
          some .pnull) ∧
      (∀ (k : String) (v : PyVal), lastLookup extra_vars k = some v →
        dictGet (buildContext cfg prepared tools flag extra_vars) k = some v) ∧
      PyVal.pnull ≠ PyVal.plist [] := by
  intro key cfg hcfg prepared tools flag extra_vars
  refine ⟨?_, ?_, fun h => PyVal.noConfusion h⟩
  · intro htools hextra
    unfold buildContext dictLit
    rw [List.foldl_append, List.foldl_append]
    rw [foldl_dictSet_no_key hextra,
      foldl_dictSet_no_key (template_vars_no_tools hcfg)]
    rcases htools with rfl | rfl <;> rfl
  · intro k v hlast
    unfold buildContext dictLit
    rw [List.foldl_append]
    exact foldl_dictSet_last hlast

/-- Witness for C8: for qwen3, `tools = none` binds to `None`, an empty
tool list also binds to `None`, and a caller-supplied
`enable_thinking := false` overrides the model default `true`. -/
theorem c8_context_tools_and_overrides_witness :
    dictGet (buildContext qwen3Config [] none true
      [("enable_thinking", .pbool false)]) "tools" = some .pnull ∧
    dictGet (buildContext qwen3Config [] (some []) true
      [("enable_thinking", .pbool false)]) "tools" = some .pnull ∧
    dictGet (buildContext qwen3Config [] none true
      [("enable_thinking", .pbool false)]) "enable_thinking" =
      some (.pbool false) := by
  have h₁ := c8_context_tools_and_overrides "qwen3" qwen3Config rfl []
    none true [("enable_thinking", .pbool false)]
  have h₂ := c8_context_tools_and_overrides "qwen3" qwen3Config rfl []
    (some []) true [("enable_thinking", .pbool false)]
  refine ⟨?_, ?_, ?_⟩
  · exact h₁.1 (Or.inl rfl)
      (by intro kv hkv; obtain rfl := List.mem_singleton.mp hkv; decide)
  · exact h₂.1 (Or.inr rfl)
      (by intro kv hkv; obtain rfl := List.mem_singleton.mp hkv; decide)
  · exact h₁.2.1 "enable_thinking" (.pbool false) rfl

/-! ## The renderer boundary (`render_template`, `generate_prompt`)

Jinja2 is external to the repository: an environment is modelled as a
resolver from template file names to templates, and a template as a
function from context to output; any Python exception is an
`Except.error` carrying `str(e)`. -/

/-- A loaded Jinja2 template: executing it either produces the rendered
string or raises (modelled as `Except.error` with the exception text). -/
structure Template where
  render : List (String × PyVal) → Except String String

/-- The Jinja2 environment of `get_jinja_env`: resolving a template file
either yields a template or raises (`TemplateNotFound`, a parse error,
...). -/
structure TemplateEngine where
  getTemplate : String → Except String Template

/-- `render_template` (template_renderer.py lines 74-122).  The
`ValueError` raised for an unknown model key propagates
(`Except.error`); a template-load failure and a render-time failure are
caught inside and converted to returned strings. -/
def render_template (engine : TemplateEngine) (model_key : String)
    (messages : List PyVal) (tools : Option (List PyVal))
    (add_generation_prompt : Bool) (extra_vars : List (String × PyVal)) :
    Except String String :=
  match lookupModel model_key with
  | none => .error ("Unknown model: " ++ model_key)
  | some config =>
      match engine.getTemplate config.template_file with
      | .error e =>
          .ok ("Error loading template " ++ config.template_file ++ ": " ++ e)
      | .ok template =>
          match template.render (buildContext config
              (prepare_messages messages) tools add_generation_prompt
              extra_vars) with
          | .ok out => .ok out
          | .error e => .ok ("Error rendering template: " ++ e)

/-- `generate_prompt` (prompt.py): deep-copies the session messages (the
identity in this value model), passes the tool list only when the
include-tools flag is set and the list is non-empty, supplies the
thinking flags as extra template variables, and converts any escaped
exception into an error string shown in place of the prompt. -/
def generate_prompt (engine : TemplateEngine) (messages : List PyVal)
    (include_tools : Bool) (toolsState : List PyVal)
    (selected_model : String) (enable_thinking : Bool)
    (add_generation_prompt : Bool) : String :=
  let tools : Option (List PyVal) :=
    if include_tools && !toolsState.isEmpty then some toolsState else none
  let template_vars : List (String × PyVal) :=
    [("thinking", .pbool enable_thinking),
     ("enable_thinking", .pbool enable_thinking)]
  match render_template engine selected_model messages tools
      add_generation_prompt template_vars with
  | .ok s => s
  | .error e => "Error generating prompt: " ++ e

/-! ## Claim C1: unknown model yields an error string, not a crash -/

/-- C1: for every message list, session state and model identifier not
in the registry, the prompt-generation pipeline returns (it is a total
function into `String`) an error-describing string that carries the
unknown identifier verbatim as its suffix. -/
theorem c1_unknown_model_error_string :
    ∀ (engine : TemplateEngine) (messages : List PyVal)
      (include_tools : Bool) (toolsState : List PyVal) (model_key : String)
      (enable_thinking add_generation_prompt : Bool),
      lookupModel model_key = none →
      generate_prompt engine messages include_tools toolsState model_key
        enable_thinking add_generation_prompt =
        "Error generating prompt: " ++ ("Unknown model: " ++ model_key) := by
  intro engine messages include_tools toolsState model_key et ag h
  unfold generate_prompt render_template
  rw [h]

/-- A trivial engine for concrete instantiations. -/
def stubEngine : TemplateEngine :=
  ⟨fun _ => .ok ⟨fun _ => .ok ""⟩⟩

/-- Witness for C1 at a concrete unknown identifier. -/
theorem c1_unknown_model_error_string_witness :
    generate_prompt stubEngine [] false [] "gpt-5" true true =
      "Error generating prompt: " ++ ("Unknown model: " ++ "gpt-5") :=
  c1_unknown_model_error_string stubEngine [] false [] "gpt-5" true true rfl

/-! ## Claim C4: template failures become returned strings -/

/-- C4: for every known model, a template-load failure makes
`render_template` return (not raise) a descriptive string embedding the
failure message, and any failure during template execution — including a
template-raised error — makes it return a descriptive string embedding
the failure message. -/
theorem c4_template_failures_become_strings :
    ∀ (engine : TemplateEngine) (key : String) (cfg : ModelConfig),
      lookupModel key = some cfg →
      ∀ (messages : List PyVal) (tools : Option (List PyVal)) (flag : Bool)
        (extra_vars : List (String × PyVal)),
      (∀ e, engine.getTemplate cfg.template_file = .error e →
        render_template engine key messages tools flag extra_vars =
          .ok ("Error loading template " ++ cfg.template_file ++ ": " ++ e)) ∧
      (∀ t e, engine.getTemplate cfg.template_file = .ok t →
        t.render (buildContext cfg (prepare_messages messages) tools flag
          extra_vars) = .error e →
        render_template engine key messages tools flag extra_vars =
          .ok ("Error rendering template: " ++ e)) := by
  intro engine key cfg hcfg messages tools flag extra_vars
  constructor
  · intro e he
    unfold render_template
    simp only [hcfg, he]
  · intro t e ht he
    unfold render_template
    simp only [hcfg, ht, he]

/-- An engine whose template resolution raises. -/
def failLoadEngine : TemplateEngine :=
  ⟨fun file => .error ("template not found: " ++ file)⟩

/-- An engine whose templates raise at render time (e.g. a template
calling `raise_exception`). -/
def failRenderEngine : TemplateEngine :=
  ⟨fun _ => .ok ⟨fun _ => .error "first message must be a system message"⟩⟩

/-- Witness for C4 at the qwen3 model with a failing loader and a
template that raises. -/
theorem c4_template_failures_become_strings_witness :
    render_template failLoadEngine "qwen3" [] none true [] =
      .ok ("Error loading template " ++ "qwen3.jinja" ++ ": " ++
        ("template not found: " ++ "qwen3.jinja")) ∧
    render_template failRenderEngine "qwen3" [] none true [] =
      .ok ("Error rendering template: " ++
        "first message must be a system message") := by
  constructor
  · exact (c4_template_failures_become_strings failLoadEngine "qwen3"
      qwen3Config rfl [] none true []).1 _ rfl
  · exact (c4_template_failures_become_strings failRenderEngine "qwen3"
      qwen3Config rfl [] none true []).2 _ _ rfl rfl

/-! ## Claim C9: the normalizer does not mutate its input

`prepare_messages` manipulates Python objects by reference, so the
no-mutation contract is stated over an explicit heap: an address is an
index into a list of cells and allocation appends a cell.  The functions
below re-transcribe `prepare_messages` at this reference level (the
value-level `prepare_messages` above is the same code with references
erased).  `msg.copy()` followed by item assignment on the copy is
modelled as allocating the updated copy; a tree freshly built by
`json.loads` shares nothing with the input and is embedded as an
immutable `hjson` value. -/

/-- A Python value at the reference level: immutable primitives are
inline, dicts and lists live behind addresses. -/
inductive HVal where
  | hnull : HVal
  | hbool : Bool → HVal
  | hint : Int → HVal
  | hstr : String → HVal
  | hjson : PyVal → HVal
  | href : Nat → HVal

/-- A mutable Python object: a dict or a list. -/
inductive HObj where
  | hdict : List (String × HVal) → HObj
  | hlist : List HVal → HObj

/-- The heap: cell `a` is `cells[a]`. -/
structure Heap where
  cells : List HObj

/-- Allocate a fresh cell; returns the new heap and the address. -/
def halloc (h : Heap) (o : HObj) : Heap × Nat :=
  (⟨h.cells ++ [o]⟩, h.cells.length)

/-- Dereference. -/
def hget (h : Heap) (a : Nat) : Option HObj :=
  h.cells[a]?

def hdictGet : List (String × HVal) → String → Option HVal
  | [], _ => none
  | (k', v') :: rest, k => if k' = k then some v' else hdictGet rest k

def hdictSet : List (String × HVal) → String → HVal → List (String × HVal)
  | [], k, v => [(k, v)]
  | (k', v') :: rest, k, v =>
      if k' = k then (k', v) :: rest else (k', v') :: hdictSet rest k v

/-- Python truthiness at the reference level. -/
def truthyH (h : Heap) : HVal → Bool
  | .hnull => false
  | .hbool b => b
  | .hint n => n != 0
  | .hstr s => !s.isEmpty
  | .hjson v => truthy v
  | .href a =>
      match hget h a with
      | some (.hdict kvs) => !kvs.isEmpty
      | some (.hlist xs) => !xs.isEmpty
      | none => false

/-- `func = tc_copy["function"].copy()` plus the string-arguments
coercion: the updated copy is a fresh allocation; the input's function
dict is not written. -/
def coerceFuncH (h : Heap) (fv : HVal) : Heap × HVal :=
  match fv with
  | .href fa =>
      match hget h fa with
      | some (.hdict fkvs) =>
          let fkvs' :=
            match hdictGet fkvs "arguments" with
            | some (.hstr s) =>
                hdictSet fkvs "arguments"
                  (.hjson ((json_loads s).getD (.pdict [])))
            | _ => fkvs
          let al := halloc h (.hdict fkvs')
          (al.1, .href al.2)
      | _ => (h, fv)
  | _ => (h, fv)

/-- One tool call: `tc_copy = tc.copy()`, with the coerced function
payload written into the fresh copy. -/
def prepTCH (h : Heap) (tc : HVal) : Heap × HVal :=
  match tc with
  | .href a =>
      match hget h a with
      | some (.hdict kvs) =>
          match hdictGet kvs "function" with
          | some fv =>
              let cf := coerceFuncH h fv
              let al := halloc cf.1 (.hdict (hdictSet kvs "function" cf.2))
              (al.1, .href al.2)
          | none =>
              let al := halloc h (.hdict kvs)
              (al.1, .href al.2)
      | _ => (h, tc)
  | _ => (h, tc)

/-- The `for tc in msg_copy["tool_calls"]` loop, threading the heap. -/
def prepTCsH (h : Heap) : List HVal → Heap × List HVal
  | [] => (h, [])
  | tc :: rest =>
      let p := prepTCH h tc
      let ps := prepTCsH p.1 rest
      (ps.1, p.2 :: ps.2)

/-- One message: `msg_copy = msg.copy()`; when `tool_calls` is present,
truthy and a list, rebuild it into a fresh list object written into the
fresh message copy.  Shapes the source would crash on (`msg` not a
dict) are returned unchanged. -/
def prepMsgH (h : Heap) (msg : HVal) : Heap × HVal :=
  match msg with
  | .href a =>
      match hget h a with
      | some (.hdict kvs) =>
          match hdictGet kvs "tool_calls" with
          | some tcv =>
              if truthyH h tcv then
                match tcv with
                | .href la =>
                    match hget h la with
                    | some (.hlist tcs) =>
                        let ps := prepTCsH h tcs
                        let ll := halloc ps.1 (.hlist ps.2)
                        let al := halloc ll.1
                          (.hdict (hdictSet kvs "tool_calls" (.href ll.2)))
                        (al.1, .href al.2)
                    | _ =>
                        let al := halloc h (.hdict kvs)
                        (al.1, .href al.2)
                | _ =>
                    let al := halloc h (.hdict kvs)
                    (al.1, .href al.2)
              else
                let al := halloc h (.hdict kvs)
                (al.1, .href al.2)
          | none =>
              let al := halloc h (.hdict kvs)
              (al.1, .href al.2)
      | _ => (h, msg)
  | _ => (h, msg)

/-- `prepare_messages` at the reference level: the `prepared` list is a
new list of fresh message copies. -/
def prepare_messagesH (h : Heap) : List HVal → Heap × List HVal
  | [] => (h, [])
  | m :: rest =>
      let p := prepMsgH h m
      let ps := prepare_messagesH p.1 rest
      (ps.1, p.2 :: ps.2)

/-- Heap extension: the new heap is the old one plus freshly allocated
cells. -/
def Ext (h h' : Heap) : Prop :=
  ∃ tail, h'.cells = h.cells ++ tail

theorem Ext.refl (h : Heap) : Ext h h :=
  ⟨[], (List.append_nil _).symm⟩

theorem Ext.trans {h₁ h₂ h₃ : Heap} (e₁ : Ext h₁ h₂) (e₂ : Ext h₂ h₃) :
    Ext h₁ h₃ := by
  obtain ⟨t₁, ht₁⟩ := e₁
  obtain ⟨t₂, ht₂⟩ := e₂
  exact ⟨t₁ ++ t₂, by rw [ht₂, ht₁, List.append_assoc]⟩

theorem halloc_ext (h : Heap) (o : HObj) : Ext h (halloc h o).1 :=
  ⟨[o], rfl⟩

theorem Ext.length_le {h h' : Heap} (e : Ext h h') :
    h.cells.length ≤ h'.cells.length := by
  obtain ⟨t, ht⟩ := e
  rw [ht]
  simp

theorem Ext.hget_eq {h h' : Heap} (e : Ext h h') {a : Nat}
    (ha : a < h.cells.length) : hget h' a = hget h a := by
  obtain ⟨t, ht⟩ := e
  unfold hget
  rw [ht]
  exact List.getElem?_append_left ha

theorem coerceFuncH_ext (h : Heap) (fv : HVal) :
    Ext h (coerceFuncH h fv).1 := by
  unfold coerceFuncH
  split
  · split
    · exact halloc_ext _ _
    · exact Ext.refl _
  · exact Ext.refl _

theorem prepTCH_ext (h : Heap) (tc : HVal) : Ext h (prepTCH h tc).1 := by
  unfold prepTCH
  split
  · split
    · split
      · exact (coerceFuncH_ext h _).trans (halloc_ext _ _)
      · exact halloc_ext _ _
    · exact Ext.refl _
  · exact Ext.refl _

theorem prepTCsH_ext (h : Heap) (tcs : List HVal) :
    Ext h (prepTCsH h tcs).1 := by
  induction tcs generalizing h with
  | nil => exact Ext.refl _
  | cons tc rest ih =>
    exact (prepTCH_ext h tc).trans (ih _)

theorem prepMsgH_ext (h : Heap) (msg : HVal) : Ext h (prepMsgH h msg).1 := by
  unfold prepMsgH
  split
  · split
    · split
      · split
        · split
          · split
            · exact ((prepTCsH_ext h _).trans (halloc_ext _ _)).trans
                (halloc_ext _ _)
            · exact halloc_ext _ _
          · exact halloc_ext _ _
        · exact halloc_ext _ _
      · exact halloc_ext _ _
    · exact Ext.refl _
  · exact Ext.refl _

theorem prepare_messagesH_ext (h : Heap) (msgs : List HVal) :
    Ext h (prepare_messagesH h msgs).1 := by
  induction msgs generalizing h with
  | nil => exact Ext.refl _
  | cons m rest ih =>
    exact (prepMsgH_ext h m).trans (ih _)

/-- A message copy is always a fresh address. -/
theorem prepMsgH_fresh {h : Heap} {a : Nat} {kvs : List (String × HVal)}
    (hd : hget h a = some (.hdict kvs)) :
    ∃ a' h', prepMsgH h (.href a) = (h', .href a') ∧
      h.cells.length ≤ a' := by
  unfold prepMsgH
  simp only [hd]
  repeat' split
  all_goals refine ⟨_, _, rfl, ?_⟩
  all_goals first
    | exact le_refl _
    | exact ((prepTCsH_ext h _).trans (halloc_ext _ _)).length_le

/-- C9: normalization does not mutate its input.  For every heap and
message list: (frame) every cell of the input heap — in particular every
message, tool call and arguments object reachable from the input — is
unchanged by `prepare_messagesH`; and (freshness) when the messages are
dict references, every element of the returned list is a reference to a
newly allocated cell, so the coerced arguments live only in the new
copies. -/
theorem c9_normalizer_frame :
    ∀ (h : Heap) (msgs : List HVal),
      (∀ a, a < h.cells.length →
        hget (prepare_messagesH h msgs).1 a = hget h a) ∧
      ((∀ v ∈ msgs, ∃ a kvs, v = .href a ∧ hget h a = some (.hdict kvs)) →
        ∀ v' ∈ (prepare_messagesH h msgs).2,
          ∃ a', v' = .href a' ∧ h.cells.length ≤ a') := by
  intro h msgs
  constructor
  · intro a ha
    exact (prepare_messagesH_ext h msgs).hget_eq ha
  · intro hwf
    induction msgs generalizing h with
    | nil => intro v' hv'; simp [prepare_messagesH] at hv'
    | cons m rest ih =>
      intro v' hv'
      obtain ⟨a, kvs, rfl, hd⟩ := hwf m (List.mem_cons_self _ _)
      obtain ⟨a', h', heq, hfr⟩ := prepMsgH_fresh hd
      simp only [prepare_messagesH, heq] at hv'
      rcases List.mem_cons.mp hv' with rfl | hmem
      · exact ⟨a', rfl, hfr⟩
      · have hext : Ext h h' := by
          have := prepMsgH_ext h (.href a)
          rw [heq] at this
          exact this
        have hwf' : ∀ v ∈ rest, ∃ b kvs₂, v = HVal.href b ∧
            hget h' b = some (.hdict kvs₂) := by
          intro v hv
          obtain ⟨b, kvs₂, rfl, hb⟩ := hwf v (List.mem_cons_of_mem _ hv)
          have hblt : b < h.cells.length := by
            by_contra hge
            unfold hget at hb
            rw [List.getElem?_eq_none (by omega)] at hb
            cases hb
          exact ⟨b, kvs₂, rfl, by rw [hext.hget_eq hblt]; exact hb⟩
        obtain ⟨a'', hv'', hge⟩ := ih h' hwf' v' hmem
        exact ⟨a'', hv'', le_trans hext.length_le hge⟩

/-- A concrete session heap: one assistant message (cell 0) whose
`tool_calls` list (cell 1) holds one call (cell 2) whose function
payload (cell 3) carries string-encoded arguments. -/
def c9TestHeap : Heap :=
  ⟨[.hdict [("role", .hstr "assistant"), ("tool_calls", .href 1)],
    .hlist [.href 2],
    .hdict [("type", .hstr "function"), ("function", .href 3)],
    .hdict [("name", .hstr "search"),
      ("arguments", .hstr "\x7b\"query\": \"x\"\x7d")]]⟩

/-- Witness for C9: on the concrete heap, the input message cell is
untouched and every returned message is a fresh reference. -/
theorem c9_normalizer_frame_witness :
    hget (prepare_messagesH c9TestHeap [.href 0]).1 0 = hget c9TestHeap 0 ∧
    ∀ v' ∈ (prepare_messagesH c9TestHeap [.href 0]).2,
      ∃ a', v' = .href a' ∧ c9TestHeap.cells.length ≤ a' := by
  constructor
  · exact (c9_normalizer_frame c9TestHeap [.href 0]).1 0 (by decide)
  · exact (c9_normalizer_frame c9TestHeap [.href 0]).2
      (by
        intro v hv
        obtain rfl := List.mem_singleton.mp hv
        exact ⟨0, [("role", .hstr "assistant"), ("tool_calls", .href 1)],
          rfl, rfl⟩)

end ChatTemplate
